import Mathlib

/-!
Shallow embedding of the portfolio-rebalancer core
(`src/portfolio_rebalancer/rebalance.py` and
`src/portfolio_rebalancer/execution.py`) over exact rationals.

Python `float` arithmetic is idealised as `ℚ`; the source's explicit
tolerance `1e-12` is kept as the exact rational `eps`.  Python `dict`s are
embedded as association lists with dict semantics: lookup returns the
first binding, updating an existing key replaces it in place, a fresh key
is appended, and iteration follows the list order (Python dicts preserve
insertion order).
-/

namespace PortfolioRebalancer

/-- Python-dict lookup `m.get(t)` / `m[t]` on an association list. -/
def dlookup {α : Type} : List (String × α) → String → Option α
  | [], _ => none
  | (k, v) :: rest, t => if k = t then some v else dlookup rest t

/-- Python-dict update `m[t] = v`: replace in place, or append a fresh key. -/
def dinsert {α : Type} : List (String × α) → String → α → List (String × α)
  | [], t, v => [(t, v)]
  | (k, w) :: rest, t, v =>
    if k = t then (k, v) :: rest else (k, w) :: dinsert rest t v

/-- Python-dict deletion `del m[t]`. -/
def derase {α : Type} : List (String × α) → String → List (String × α)
  | [], _ => []
  | (k, w) :: rest, t => if k = t then rest else (k, w) :: derase rest t

/-- Sequential effectful fold, the shape of the source's `for` loops over
state that can raise (`raise ValueError`). -/
def efold {σ α ε : Type} (f : σ → α → Except ε σ) : σ → List α → Except ε σ
  | s, [] => .ok s
  | s, x :: xs =>
    match f s x with
    | .error e => .error e
    | .ok s' => efold f s' xs

/-- Stable insertion of `x` into `l`: `x` goes in front of the first
element that is strictly greater (`lt x y`), after all equal ones. -/
def insert_by {α : Type} (lt : α → α → Bool) (x : α) : List α → List α
  | [] => [x]
  | y :: ys => if lt x y then x :: y :: ys else y :: insert_by lt x ys

/-- Stable insertion sort, a deterministic stand-in for Python's stable
`list.sort`. -/
def sort_by {α : Type} (lt : α → α → Bool) : List α → List α
  | [] => []
  | x :: xs => insert_by lt x (sort_by lt xs)

/-- Modelled from the spec: `models.py` is not under `src/`.  §3 of the
spec defines a Trade's `side` as `BUY | SELL`. -/
inductive Side
  | BUY
  | SELL
deriving DecidableEq, Repr

/-- Modelled from the spec: `models.py` is not under `src/`.  §3: a Trade
holds ticker, side, quantity and the per-unit execution price. -/
structure Trade where
  ticker : String
  side : Side
  quantity : ℚ
  price : ℚ
deriving DecidableEq, Repr

/-- Modelled from the spec: §3 defines `notional` = quantity × price. -/
def Trade.notional (t : Trade) : ℚ := t.quantity * t.price

/-- Modelled from the spec: `models.py` is not under `src/`.  §3: a
Position holds ticker, asset_type, quantity and a reference price. -/
structure Position where
  ticker : String
  asset_type : String
  quantity : ℚ
  price : ℚ
deriving DecidableEq, Repr

/-- Modelled from the spec: `models.py` is not under `src/`.  §3: a
Portfolio is an ordered collection of Positions plus cash. -/
structure Portfolio where
  positions : List Position
  cash : ℚ
deriving DecidableEq, Repr

/-- Modelled from the spec: `targets.py` is not under `src/`.  §3/§4.1: a
TargetAllocation is a mapping ticker → fractional weight. -/
structure TargetAllocation where
  weights_by_ticker : List (String × ℚ)
deriving DecidableEq, Repr

/-- Modelled from the spec, §4.1: `weight(ticker)` returns the stored
weight or `0.0` if absent. -/
def TargetAllocation.weight (ta : TargetAllocation) (t : String) : ℚ :=
  (dlookup ta.weights_by_ticker t).getD 0

/-- `rebalance.py` line 11: the result record. -/
structure RebalanceResult where
  trades : List Trade
  cash_before : ℚ
  cash_after : ℚ
deriving DecidableEq, Repr

/-- The error taxonomy of the engine (`raise ValueError(...)` sites in
`rebalance.py`; the spec names them InvalidMode / MissingPrice /
InvalidPrice, each price error naming the offending ticker). -/
inductive RebalanceError
  | invalid_mode
  | missing_price (ticker : String)
  | invalid_price (ticker : String)
deriving DecidableEq, Repr

/-- The source's tolerance `1e-12`, exact. -/
def eps : ℚ := 1 / 1000000000000

/-- `rebalance.py` line 18: `float(int(math.floor(x + 1e-12)))`. -/
def floor_shares (x : ℚ) : ℚ := ((⌊x + eps⌋ : ℤ) : ℚ)

/-- `rebalance.py` lines 44-50 / 203-209: `_need_price`. -/
def need_price (prices : List (String × ℚ)) (t : String) :
    Except RebalanceError ℚ :=
  match dlookup prices t with
  | none => .error (.missing_price t)
  | some px => if px ≤ 0 then .error (.invalid_price t) else .ok px

/-- Convenience: the raw looked-up price, defaulting to 0 (`need_price`
succeeds exactly when this is positive and the key is present). -/
def priceD (prices : List (String × ℚ)) (t : String) : ℚ :=
  (dlookup prices t).getD 0

/-- `rebalance.py` line 214: `{p.ticker: float(p.quantity) for p in positions}`. -/
def qty_by_ticker (pf : Portfolio) : List (String × ℚ) :=
  pf.positions.foldl (fun m p => dinsert m p.ticker p.quantity) []

/-- `rebalance.py` lines 22-23: `_asset_type_map`. -/
def asset_type_map (pf : Portfolio) : List (String × String) :=
  pf.positions.foldl (fun m p => dinsert m p.ticker p.asset_type) []

/-- `rebalance.py` lines 217-222: current values of held positions with
positive quantity, priced from the supplied price map. -/
def current_values (prices : List (String × ℚ)) :
    List (String × ℚ) → Except RebalanceError (List (String × ℚ))
  | [] => .ok []
  | (t, qty) :: rest =>
    if qty ≤ 0 then current_values prices rest
    else
      match need_price prices t with
      | .error e => .error e
      | .ok px =>
        match current_values prices rest with
        | .error e => .error e
        | .ok cvs => .ok ((t, qty * px) :: cvs)

/-- `rebalance.py` line 227: the universe is the *set* union of held
(positively-quantified, hence priced) tickers and targeted tickers.
Python set iteration order is unspecified; we fix one concrete
duplicate-free enumeration of that set. -/
def universe_of (cv : List (String × ℚ)) (target : TargetAllocation) :
    List String :=
  (cv.map Prod.fst ++ target.weights_by_ticker.map Prod.fst).dedup

/-- The same enumeration computed from the portfolio alone (the tickers
of `qty_by_ticker` with positive quantity are exactly the keys of
`current_values` whenever valuation succeeds). -/
def universe0 (pf : Portfolio) (target : TargetAllocation) : List String :=
  (((qty_by_ticker pf).filter (fun p => decide (0 < p.2))).map Prod.fst
    ++ target.weights_by_ticker.map Prod.fst).dedup

/-- The valuation snapshot of `rebalance.py` lines 211-234: current
values, total value, universe, target values and deltas. -/
structure Valuation where
  current_values : List (String × ℚ)
  total_value : ℚ
  univ : List String
  target_values : List (String × ℚ)
  deltas : List (String × ℚ)
deriving DecidableEq, Repr

/-- `rebalance.py` lines 211-234.  `target_values[t]` and the dict
comprehensions index the duplicate-free universe, so the per-ticker
values are written directly as functions of the ticker. -/
def valuation (pf : Portfolio) (target : TargetAllocation)
    (prices : List (String × ℚ)) : Except RebalanceError Valuation :=
  match current_values prices (qty_by_ticker pf) with
  | .error e => .error e
  | .ok cv =>
    let total : ℚ := (cv.map Prod.snd).sum + pf.cash
    let univ := universe_of cv target
    .ok { current_values := cv
          total_value := total
          univ := univ
          target_values := univ.map (fun t => (t, total * target.weight t))
          deltas := univ.map
            (fun t => (t, total * target.weight t - (dlookup cv t).getD 0)) }

/-- The mutable state threaded through the SELL leg of `rebalance.py`
lines 239-268: cash, current values, held quantities, deltas and the
trades emitted so far. -/
structure SellState where
  cash : ℚ
  current_values : List (String × ℚ)
  qtys : List (String × ℚ)
  deltas : List (String × ℚ)
  trades : List Trade
deriving DecidableEq, Repr

/-- One iteration of the SELL loop, `rebalance.py` lines 244-268. -/
def sell_step (prices : List (String × ℚ)) (allow_fractional : Bool)
    (min_trade_notional : ℚ) (target_values : List (String × ℚ))
    (st : SellState) (item : String × ℚ) : Except RebalanceError SellState :=
  let t := item.1
  let delta := item.2
  let current_qty := (dlookup st.qtys t).getD 0
  if current_qty ≤ 0 then .ok st
  else
    match need_price prices t with
    | .error e => .error e
    | .ok price =>
      let desired_qty := (-delta) / price
      let qty0 := if allow_fractional then desired_qty else floor_shares desired_qty
      let qty := min qty0 current_qty
      if qty ≤ 0 then .ok st
      else
        let notional := qty * price
        if notional < min_trade_notional then .ok st
        else
          let cv' := dinsert st.current_values t
            ((dlookup st.current_values t).getD 0 - notional)
          .ok { cash := st.cash + notional
                current_values := cv'
                qtys := dinsert st.qtys t (current_qty - qty)
                deltas := dinsert st.deltas t
                  ((dlookup target_values t).getD 0 - (dlookup cv' t).getD 0)
                trades := st.trades ++ [{ ticker := t, side := .SELL,
                                          quantity := qty, price := price }] }

/-- The SELL leg: the loop of `rebalance.py` lines 244-268 over the
delta-sorted sell items. -/
def sell_leg (prices : List (String × ℚ)) (allow_fractional : Bool)
    (min_trade_notional : ℚ) (target_values : List (String × ℚ))
    (items : List (String × ℚ)) (st : SellState) :
    Except RebalanceError SellState :=
  efold (sell_step prices allow_fractional min_trade_notional target_values)
    st items

/-- The planned-buys accumulators of `_buy_two_level`
(`rebalance.py` line 77-78): `qty_acc` and `bought_value`. -/
structure BuyAcc where
  qty_acc : List (String × ℚ)
  bought_value : List (String × ℚ)
deriving DecidableEq, Repr

/-- `rebalance.py` lines 80-89: `_add_buy` returns the notional actually
booked (0 when the candidate buy is dropped). -/
def add_buy (prices : List (String × ℚ)) (min_trade_notional : ℚ)
    (acc : BuyAcc) (t : String) (qty : ℚ) :
    Except RebalanceError (BuyAcc × ℚ) :=
  if qty ≤ 0 then .ok (acc, 0)
  else
    match need_price prices t with
    | .error e => .error e
    | .ok px =>
      let notional := qty * px
      if notional < min_trade_notional then .ok (acc, 0)
      else
        .ok ({ qty_acc := dinsert acc.qty_acc t
                 ((dlookup acc.qty_acc t).getD 0 + qty)
               bought_value := dinsert acc.bought_value t
                 ((dlookup acc.bought_value t).getD 0 + notional) },
             notional)

/-- `dict.setdefault(k, []).append(t)`: append `t` to the group of key
`k`, creating the group at the end when absent (`rebalance.py` line 63). -/
def append_group (m : List (String × List String)) (k : String) (t : String) :
    List (String × List String) :=
  match m with
  | [] => [(k, [t])]
  | (k', ts) :: rest =>
    if k' = k then (k', ts ++ [t]) :: rest
    else (k', ts) :: append_group rest k t

/-- `rebalance.py` lines 61-63: group the buy tickers by asset type
(`_atype`, line 52-53, defaults to `"UNKNOWN"`). -/
def group_by_type (aty : List (String × String)) (ts : List String) :
    List (String × List String) :=
  ts.foldl (fun m t => append_group m ((dlookup aty t).getD "UNKNOWN") t) []

/-- `rebalance.py` lines 65-70 / 103: the aggregate positive-delta need
of a list of tickers (`sum(max(0.0, deltas[t]))`). -/
def need_of (deltas : List (String × ℚ)) (ts : List String) : ℚ :=
  (ts.map (fun t => max 0 ((dlookup deltas t).getD 0))).sum

/-- One ticker of the level-2 pass, `rebalance.py` lines 107-129.  The
state is the accumulator paired with `spent_total`. -/
def level2_ticker (prices : List (String × ℚ)) (min_trade_notional : ℚ)
    (allow_fractional : Bool) (deltas : List (String × ℚ))
    (budget_type need_type : ℚ) (s : BuyAcc × ℚ) (t : String) :
    Except RebalanceError (BuyAcc × ℚ) :=
  let d := max 0 ((dlookup deltas t).getD 0)
  if d ≤ 0 then .ok s
  else
    match need_price prices t with
    | .error e => .error e
    | .ok px =>
      let budget_t := budget_type * (d / need_type)
      let budget_eff := min budget_t d
      let qty := if allow_fractional then budget_eff / px
                 else floor_shares (budget_eff / px)
      if qty ≤ 0 then .ok s
      else
        match add_buy prices min_trade_notional s.1 t qty with
        | .error e => .error e
        | .ok (acc', notional) =>
          if 0 < notional then .ok (acc', s.2 + notional) else .ok (acc', s.2)

/-- One asset-type group of the level-2 pass, `rebalance.py` lines
98-129.  `budgets_by_type[at]` and `need_by_type[at]` resolve to
`cash * need_of / total_need` and `need_of` for the group's tickers,
since `by_type` has duplicate-free keys. -/
def level2_type (prices : List (String × ℚ)) (min_trade_notional : ℚ)
    (allow_fractional : Bool) (deltas : List (String × ℚ))
    (cash total_need : ℚ) (s : BuyAcc × ℚ) (grp : String × List String) :
    Except RebalanceError (BuyAcc × ℚ) :=
  let budget_type := cash * (need_of deltas grp.2 / total_need)
  if budget_type ≤ 0 then .ok s
  else
    let need_type := need_of deltas grp.2
    if need_type ≤ 0 then .ok s
    else
      efold (level2_ticker prices min_trade_notional allow_fractional deltas
        budget_type need_type) s grp.2

/-- `rebalance.py` lines 137-143: `_relative_gap`. -/
def relative_gap (target_values current_values bought_value :
    List (String × ℚ)) (t : String) : ℚ :=
  let tv := (dlookup target_values t).getD 0
  if tv ≤ 0 then 0
  else
    let cv := (dlookup current_values t).getD 0 +
      (dlookup bought_value t).getD 0
    max 0 (tv - cv) / tv

/-- One candidate of the best-ticker scan, `rebalance.py` lines 150-167.
The state is `(best_t, best_score)`. -/
def select_step (prices : List (String × ℚ))
    (target_values current_values bought_value : List (String × ℚ))
    (cash_left : ℚ) (best : Option String × ℚ) (t : String) :
    Except RebalanceError (Option String × ℚ) :=
  match need_price prices t with
  | .error e => .error e
  | .ok px =>
    if cash_left < px then .ok best
    else
      let tv := (dlookup target_values t).getD 0
      if tv ≤ 0 then .ok best
      else
        let cv := (dlookup current_values t).getD 0 +
          (dlookup bought_value t).getD 0
        if tv - cv ≤ 0 then .ok best
        else
          let score := relative_gap target_values current_values
            bought_value t
          if best.2 < score then .ok (some t, score) else .ok best

/-- The best-ticker scan of one top-up iteration, `rebalance.py` lines
147-167. -/
def select_best (prices : List (String × ℚ))
    (target_values current_values bought_value : List (String × ℚ))
    (cash_left : ℚ) (buy_tickers : List String) :
    Except RebalanceError (Option String) :=
  match efold (select_step prices target_values current_values bought_value
      cash_left) (none, 0) buy_tickers with
  | .error e => .error e
  | .ok best => .ok best.1

/-- The greedy top-up `while True` loop of `rebalance.py` lines 146-179.
The loop has no syntactic bound; it is embedded with explicit fuel, and
the returned flag records whether it exited through one of its own
`break`s (`true`) rather than by exhausting fuel (`false`).  The
termination theorem shows that with `top_up_fuel` the flag is always
`true`, so the fuel clause is never taken. -/
def top_up (prices : List (String × ℚ)) (min_trade_notional : ℚ)
    (target_values current_values : List (String × ℚ))
    (buy_tickers : List String) :
    Nat → ℚ → BuyAcc → Except RebalanceError (ℚ × BuyAcc × Bool)
  | 0, cash_left, acc => .ok (cash_left, acc, false)
  | fuel + 1, cash_left, acc =>
    match select_best prices target_values current_values acc.bought_value
        cash_left buy_tickers with
    | .error e => .error e
    | .ok none => .ok (cash_left, acc, true)
    | .ok (some t) =>
      match need_price prices t with
      | .error e => .error e
      | .ok px =>
        if cash_left < px then .ok (cash_left, acc, true)
        else
          match add_buy prices min_trade_notional acc t 1 with
          | .error e => .error e
          | .ok (acc', notional) =>
            if notional ≤ 0 then .ok (cash_left, acc', true)
            else top_up prices min_trade_notional target_values
              current_values buy_tickers fuel (cash_left - notional) acc'

/-- The cheapest looked-up price over a list of tickers (1 on the empty
list).  When every buy ticker carries a positive price this is the least
amount one top-up iteration must spend. -/
def min_price_of (prices : List (String × ℚ)) : List String → ℚ
  | [] => 1
  | t :: ts => (ts.map (priceD prices)).foldl min (priceD prices t)

/-- Sufficient fuel for the top-up loop: each iteration spends at least
the cheapest eligible price, so `⌈cash_left / min price⌉ + 1` iterations
always reach a `break` (or an error). -/
def top_up_fuel (prices : List (String × ℚ)) (buy_tickers : List String)
    (cash_left : ℚ) : Nat :=
  (⌈cash_left / min_price_of prices buy_tickers⌉).toNat + 1

/-- One append of the BUY-trade emission loop, `rebalance.py` lines
183-185. -/
def emit_step (prices : List (String × ℚ)) (ts : List Trade)
    (p : String × ℚ) : Except RebalanceError (List Trade) :=
  match need_price prices p.1 with
  | .error e => .error e
  | .ok px => .ok (ts ++ [{ ticker := p.1, side := Side.BUY,
                            quantity := p.2, price := px }])

/-- The BUY-trade emission of `rebalance.py` lines 182-185. -/
def emit_buys (prices : List (String × ℚ)) (qty_acc : List (String × ℚ)) :
    Except RebalanceError (List Trade) :=
  efold (emit_step prices) [] qty_acc

/-- `rebalance.py` lines 26-187: `_buy_two_level`.  `need_by_type` and
`budgets_by_type` are keyed by the duplicate-free keys of `by_type`, so
their lookups are resolved in `level2_type`; `total_need` is the sum of
`need_by_type`'s values. -/
def buy_two_level (prices : List (String × ℚ))
    (aty : List (String × String)) (allow_fractional : Bool)
    (min_trade_notional : ℚ) (cash : ℚ)
    (deltas target_values current_values : List (String × ℚ)) :
    Except RebalanceError (List Trade × ℚ) :=
  let buy_tickers := (deltas.filter (fun p => decide (0 < p.2))).map Prod.fst
  if cash ≤ 0 ∨ buy_tickers = [] then .ok ([], cash)
  else
    let by_type := group_by_type aty buy_tickers
    let total_need := (by_type.map (fun g => need_of deltas g.2)).sum
    if total_need ≤ 0 then .ok ([], cash)
    else
      match efold (level2_type prices min_trade_notional allow_fractional
          deltas cash total_need) (⟨[], []⟩, 0) by_type with
      | .error e => .error e
      | .ok (acc, spent_total) =>
        let cash_left := cash - spent_total
        match
          (if allow_fractional = false ∧ 0 < cash_left then
            top_up prices min_trade_notional target_values current_values
              buy_tickers (top_up_fuel prices buy_tickers cash_left)
              cash_left acc
          else .ok (cash_left, acc, true)) with
        | .error e => .error e
        | .ok (cash_left2, acc2, _) =>
          match emit_buys prices acc2.qty_acc with
          | .error e => .error e
          | .ok trades => .ok (trades, cash_left2)

/-- `rebalance.py` line 199: `str(mode).strip().upper()`. -/
def mode_norm (mode : String) : String := mode.trim.toUpper

/-- `rebalance.py` lines 190-288: `rebalance`. -/
def rebalance (portfolio : Portfolio) (target : TargetAllocation)
    (prices : List (String × ℚ)) (mode : String) (allow_fractional : Bool)
    (min_trade_notional : ℚ) : Except RebalanceError RebalanceResult :=
  let m := mode_norm mode
  if m ≠ "BUY" ∧ m ≠ "TRADE" ∧ m ≠ "SELL" then .error .invalid_mode
  else
    match valuation portfolio target prices with
    | .error e => .error e
    | .ok v =>
      let st0 : SellState :=
        { cash := portfolio.cash, current_values := v.current_values,
          qtys := qty_by_ticker portfolio, deltas := v.deltas, trades := [] }
      match
        (if m = "SELL" ∨ m = "TRADE" then
          sell_leg prices allow_fractional min_trade_notional
            v.target_values
            (sort_by (fun a b => decide (a.2 < b.2))
              (v.deltas.filter (fun p => decide (p.2 < 0)))) st0
        else .ok st0) with
      | .error e => .error e
      | .ok st =>
        match
          (if m = "BUY" ∨ m = "TRADE" then
            buy_two_level prices (asset_type_map portfolio)
              allow_fractional min_trade_notional st.cash st.deltas
              v.target_values st.current_values
          else .ok ([], st.cash)) with
        | .error e => .error e
        | .ok (buys, cash2) =>
          .ok { trades := st.trades ++ buys,
                cash_before := portfolio.cash, cash_after := cash2 }

/-- The error taxonomy of `execution.py` (`raise ValueError(...)` sites;
the spec names them UnknownPosition / OversellError / InsufficientCash /
MissingAssetType). -/
inductive ExecError
  | unknown_position (ticker : String)
  | oversell (ticker : String)
  | insufficient_cash (ticker : String)
  | missing_asset_type (ticker : String)
deriving DecidableEq, Repr

/-- `execution.py` line 29: `{p.ticker: p for p in portfolio.positions}`. -/
def pos_by_ticker (pf : Portfolio) : List (String × Position) :=
  pf.positions.foldl (fun m p => dinsert m p.ticker p) []

/-- One iteration of the trade loop of `execution.py` lines 32-82.  The
state is the position index paired with cash.  `side` is the two-valued
type of §3 of the spec, so the source's defensive invalid-side branch
(line 81-82) has no inhabitant here. -/
def apply_one (aty : List (String × String))
    (default_asset_type : Option String)
    (st : List (String × Position) × ℚ) (t : Trade) :
    Except ExecError (List (String × Position) × ℚ) :=
  let pos := st.1
  let cash := st.2
  let qty := t.quantity
  let price := t.price
  let notional := t.notional
  match t.side with
  | .SELL =>
    match dlookup pos t.ticker with
    | none => .error (.unknown_position t.ticker)
    | some p =>
      if p.quantity + eps < qty then .error (.oversell t.ticker)
      else
        let new_qty := p.quantity - qty
        let cash' := cash + notional
        if new_qty ≤ eps then .ok (derase pos t.ticker, cash')
        else .ok (dinsert pos t.ticker
          { p with quantity := new_qty, price := price }, cash')
  | .BUY =>
    if cash + eps < notional then .error (.insufficient_cash t.ticker)
    else
      let cash' := cash - notional
      match dlookup pos t.ticker with
      | some p =>
        .ok (dinsert pos t.ticker
          { p with quantity := p.quantity + qty, price := price }, cash')
      | none =>
        match dlookup aty t.ticker with
        | some asset_type =>
          .ok (dinsert pos t.ticker
            { ticker := t.ticker, asset_type := asset_type,
              quantity := qty, price := price }, cash')
        | none =>
          match default_asset_type with
          | some asset_type =>
            .ok (dinsert pos t.ticker
              { ticker := t.ticker, asset_type := asset_type,
                quantity := qty, price := price }, cash')
          | none => .error (.missing_asset_type t.ticker)

/-- `execution.py` lines 9-85: `apply_trades`.  `asset_type_by_ticker`
is optional in the source (`None` ⇒ `{}`), and the output positions are
returned sorted by ticker. -/
def apply_trades (portfolio : Portfolio) (trades : List Trade)
    (asset_type_by_ticker : Option (List (String × String)))
    (default_asset_type : Option String) : Except ExecError Portfolio :=
  let aty := asset_type_by_ticker.getD []
  match efold (apply_one aty default_asset_type)
      (pos_by_ticker portfolio, portfolio.cash) trades with
  | .error e => .error e
  | .ok (pos, cash) =>
    .ok { positions := sort_by (fun p q => decide (p.ticker < q.ticker))
            (pos.map Prod.snd),
          cash := cash }

/-- The source's signature defaults `default_asset_type` to `"STOCK"`
(`execution.py` line 14); this is `apply_trades` as called without that
argument. -/
def apply_trades_default (portfolio : Portfolio) (trades : List Trade)
    (asset_type_by_ticker : Option (List (String × String))) :
    Except ExecError Portfolio :=
  apply_trades portfolio trades asset_type_by_ticker (some "STOCK")

/-! ### Sums over association lists -/

/-- The sum of the values of an association list (`sum(m.values())`). -/
def vsum (m : List (String × ℚ)) : ℚ := (m.map Prod.snd).sum

/-- The total planned notional of a quantity accumulator: each ticker's
quantity times its looked-up price. -/
def nsum (prices : List (String × ℚ)) (m : List (String × ℚ)) : ℚ :=
  (m.map (fun p => p.2 * priceD prices p.1)).sum

/-- Total notional of the trades of one side in a trade list. -/
def side_notional (s : Side) (ts : List Trade) : ℚ :=
  ((ts.filter (fun t => decide (t.side = s))).map Trade.notional).sum

/-! ### Concrete inputs used to instantiate the properties -/

/-- The spec's §8 scenario portfolio: `{AAA: qty 10 @ price 10, cash 100}`. -/
def ex_pf1 : Portfolio := ⟨[⟨"AAA", "STOCK", 10, 10⟩], 100⟩

def ex_tg1 : TargetAllocation := ⟨[("AAA", 1/2), ("BBB", 1/2)]⟩

def ex_pr1 : List (String × ℚ) := [("AAA", 10), ("BBB", 20)]

def ex_r1 : RebalanceResult := ⟨[Trade.mk "BBB" Side.BUY 5 20], 100, 0⟩

/-- A price engineered so that `budget/price` falls within `1e-12` below
a whole number: `1 / ex_q2 = 2 - 1e-12`, so the epsilon-biased floor
rounds the quantity up and the purchase overshoots the budget. -/
def ex_q2 : ℚ := 1000000000000 / 1999999999999

def ex_pf2 : Portfolio := ⟨[], 1⟩

def ex_tg2 : TargetAllocation := ⟨[("BBB", 1)]⟩

def ex_pr2 : List (String × ℚ) := [("BBB", ex_q2)]

/-- The spec's §8 SELL scenario target: `{AAA: 0.0}`. -/
def ex_tg3 : TargetAllocation := ⟨[("AAA", 0)]⟩

def ex_pr3 : List (String × ℚ) := [("AAA", 10)]

def ex_r3 : RebalanceResult := ⟨[Trade.mk "AAA" Side.SELL 10 10], 100, 200⟩

/-- Top-up inputs: one ticker at price 3, 10 of leftover cash, target
value 100 — the loop buys three whole units and stops at cash 1. -/
def ex_pr4 : List (String × ℚ) := [("BBB", 3)]

def ex_tv4 : List (String × ℚ) := [("BBB", 100)]

def ex_acc4 : BuyAcc := ⟨[("BBB", 3)], [("BBB", 9)]⟩

/-- A portfolio exactly at target weights: total 200, target half in
`AAA`, current value of `AAA` = 100 = target value. -/
def ex_tg6 : TargetAllocation := ⟨[("AAA", 1/2)]⟩

def ex_v6 : Valuation :=
  ⟨[("AAA", 100)], 200, ["AAA"], [("AAA", 100)], [("AAA", 0)]⟩

def ex_r6 : RebalanceResult := ⟨[], 100, 100⟩

/-- A TRADE run that both sells and buys: sell all of `AAA`, spend the
proceeds on `BBB`. -/
def ex_pf7 : Portfolio := ⟨[⟨"AAA", "STOCK", 10, 10⟩], 0⟩

def ex_tg7 : TargetAllocation := ⟨[("BBB", 1)]⟩

def ex_pr7 : List (String × ℚ) := [("AAA", 10), ("BBB", 20)]

def ex_r7 : RebalanceResult :=
  ⟨[Trade.mk "AAA" Side.SELL 10 10, Trade.mk "BBB" Side.BUY 5 20], 0, 0⟩

def ex_v7 : Valuation :=
  ⟨[("AAA", 100)], 100, ["AAA", "BBB"], [("AAA", 0), ("BBB", 100)],
    [("AAA", -100), ("BBB", 100)]⟩

/-- Execution inputs: a zero-quantity input row survives settlement
untouched. -/
def ex_pf9 : Portfolio := ⟨[⟨"AAA", "STOCK", 0, 1⟩], 0⟩

/-- Execution inputs for the amended C9 and for C10. -/
def ex_pf10 : Portfolio := ⟨[], 100⟩

def ex_buy10 : Trade := Trade.mk "ZZZ" Side.BUY 1 10

/-- Price-validation inputs: `AAA` is held with positive quantity but
`ex_pr8` has no entry for it; `ex_pr8ok` prices everything; `ex_pr8far`
agrees with `ex_pr8ok` on the run's universe (`AAA` alone) but carries a
wildly different — even non-positive — entry for the never-read ticker
`ZZZ`. -/
def ex_pf8 : Portfolio := ⟨[⟨"AAA", "STOCK", 1, 10⟩], 100⟩

def ex_tg8 : TargetAllocation := ⟨[("AAA", 1)]⟩

def ex_pr8 : List (String × ℚ) := [("BBB", 5)]

def ex_pr8ok : List (String × ℚ) := [("AAA", 10), ("ZZZ", 7)]

def ex_pr8far : List (String × ℚ) := [("AAA", 10), ("ZZZ", -3)]

/-! ### Lemmas: dictionaries -/

theorem dlookup_dinsert_self {α : Type} (m : List (String × α)) (t : String)
    (v : α) : dlookup (dinsert m t v) t = some v := by
  induction m with
  | nil => simp [dinsert, dlookup]
  | cons p rest ih =>
    by_cases h : p.1 = t
    · simp [dinsert, dlookup, h]
    · simpa [dinsert, dlookup, h] using ih

theorem dlookup_dinsert_ne {α : Type} (m : List (String × α)) {t u : String}
    (v : α) (h : t ≠ u) : dlookup (dinsert m t v) u = dlookup m u := by
  induction m with
  | nil => simp [dinsert, dlookup, h]
  | cons p rest ih =>
    by_cases hp : p.1 = t
    · simp [dinsert, dlookup, hp, h]
    · simp only [dinsert, hp, if_false]
      by_cases hu : p.1 = u <;> simp [dlookup, hu, ih]

theorem keys_dinsert_of_mem {α : Type} {m : List (String × α)} {t : String}
    (v : α) (h : t ∈ m.map Prod.fst) :
    (dinsert m t v).map Prod.fst = m.map Prod.fst := by
  induction m with
  | nil => simp at h
  | cons p rest ih =>
    by_cases hp : p.1 = t
    · simp [dinsert, hp]
    · simp only [List.map_cons, List.mem_cons] at h
      rcases h with h | h
      · exact absurd h.symm hp
      · simp [dinsert, hp, ih h]

theorem dlookup_of_mem_nodup {α : Type} {m : List (String × α)}
    {t : String} {v : α} (hmem : (t, v) ∈ m)
    (hnd : (m.map Prod.fst).Nodup) : dlookup m t = some v := by
  induction m with
  | nil => simp at hmem
  | cons p rest ih =>
    simp only [List.map_cons, List.nodup_cons] at hnd
    rcases List.mem_cons.mp hmem with h | h
    · subst h; simp [dlookup]
    · have ht : p.1 ≠ t := by
        intro he
        exact hnd.1 (he ▸ (List.mem_map.mpr ⟨(t, v), h, rfl⟩))
      simp [dlookup, ht, ih h hnd.2]

theorem mem_of_dlookup_eq_some {α : Type} {m : List (String × α)}
    {t : String} {v : α} (h : dlookup m t = some v) : (t, v) ∈ m := by
  induction m with
  | nil => simp [dlookup] at h
  | cons p rest ih =>
    obtain ⟨k, w⟩ := p
    by_cases hp : k = t
    · subst hp
      simp only [dlookup, if_pos rfl] at h
      cases h
      exact List.mem_cons_self _ _
    · simp only [dlookup, hp, if_false] at h
      exact List.mem_cons_of_mem _ (ih h)

theorem keys_dinsert_of_not_mem {α : Type} {m : List (String × α)}
    {t : String} (v : α) (h : t ∉ m.map Prod.fst) :
    (dinsert m t v).map Prod.fst = m.map Prod.fst ++ [t] := by
  induction m with
  | nil => simp [dinsert]
  | cons p rest ih =>
    simp only [List.map_cons, List.mem_cons] at h
    push_neg at h
    have hp : p.1 ≠ t := fun he => h.1 he.symm
    simp [dinsert, hp, ih h.2]

theorem nodup_keys_dinsert {α : Type} {m : List (String × α)} (t : String)
    (v : α) (h : (m.map Prod.fst).Nodup) :
    ((dinsert m t v).map Prod.fst).Nodup := by
  by_cases hm : t ∈ m.map Prod.fst
  · rw [keys_dinsert_of_mem v hm]; exact h
  · rw [keys_dinsert_of_not_mem v hm]
    refine List.Nodup.append h (List.nodup_singleton t) ?_
    intro x hx hx'
    rw [List.mem_singleton] at hx'
    exact hm (hx' ▸ hx)

theorem vsum_dinsert_add (m : List (String × ℚ)) (t : String) (x : ℚ) :
    vsum (dinsert m t ((dlookup m t).getD 0 + x)) = vsum m + x := by
  induction m with
  | nil => simp [vsum, dinsert, dlookup]
  | cons p rest ih =>
    by_cases hp : p.1 = t
    · simp [vsum, dinsert, dlookup, hp]
      ring
    · simp only [dinsert, hp, if_false, dlookup]
      simp only [vsum, List.map_cons, List.sum_cons] at ih ⊢
      rw [ih]
      ring

theorem nsum_dinsert_add (prices m : List (String × ℚ)) (t : String) (x : ℚ) :
    nsum prices (dinsert m t ((dlookup m t).getD 0 + x)) =
      nsum prices m + x * priceD prices t := by
  induction m with
  | nil => simp [nsum, dinsert, dlookup]
  | cons p rest ih =>
    by_cases hp : p.1 = t
    · simp [nsum, dinsert, dlookup, hp]
      ring
    · simp only [dinsert, hp, if_false, dlookup]
      simp only [nsum, List.map_cons, List.sum_cons] at ih ⊢
      rw [ih]
      ring

/-! ### Lemmas: prices -/

theorem need_price_ok_iff {prices : List (String × ℚ)} {t : String} {px : ℚ} :
    need_price prices t = .ok px ↔ dlookup prices t = some px ∧ 0 < px := by
  unfold need_price
  cases h : dlookup prices t with
  | none => simp
  | some q =>
    by_cases hq : q ≤ 0
    · simp only [if_pos hq]
      constructor
      · intro he
        cases he
      · rintro ⟨hqe, hpx⟩
        cases hqe
        exact absurd hq (not_le.mpr hpx)
    · simp only [if_neg hq]
      constructor
      · intro he
        cases he
        exact ⟨rfl, not_le.mp hq⟩
      · rintro ⟨hqe, _⟩
        cases hqe
        rfl

theorem need_price_ok_priceD {prices : List (String × ℚ)} {t : String}
    {px : ℚ} (h : need_price prices t = .ok px) :
    priceD prices t = px ∧ 0 < px := by
  rcases need_price_ok_iff.mp h with ⟨hl, hpx⟩
  exact ⟨by simp [priceD, hl], hpx⟩

theorem need_price_err_of_priceD_nonpos {prices : List (String × ℚ)}
    {t : String} (h : priceD prices t ≤ 0) :
    ∃ e, need_price prices t = .error e := by
  unfold need_price
  cases hl : dlookup prices t with
  | none => exact ⟨_, rfl⟩
  | some q =>
    have hq : q ≤ 0 := by simpa [priceD, hl] using h
    exact ⟨RebalanceError.invalid_price t, by simp [hq]⟩

/-! ### Lemmas: stable insertion sort -/

theorem insert_by_perm {α : Type} (lt : α → α → Bool) (y : α) (m : List α) :
    List.Perm (insert_by lt y m) (y :: m) := by
  induction m with
  | nil => simp [insert_by]
  | cons z zs ih =>
    by_cases h : lt y z
    · simp [insert_by, h]
    · simp only [insert_by, h, if_false]
      exact (ih.cons z).trans (List.Perm.swap y z zs)

theorem sort_by_perm {α : Type} (lt : α → α → Bool) (l : List α) :
    List.Perm (sort_by lt l) l := by
  induction l with
  | nil => simp [sort_by]
  | cons x xs ih =>
    exact (insert_by_perm lt x (sort_by lt xs)).trans (ih.cons x)

theorem insert_by_sorted (x : String × ℚ) (l : List (String × ℚ))
    (h : l.Pairwise (fun a b => a.2 ≤ b.2)) :
    (insert_by (fun a b => decide (a.2 < b.2)) x l).Pairwise
      (fun a b => a.2 ≤ b.2) := by
  induction l with
  | nil => simp [insert_by]
  | cons z zs ih =>
    rcases List.pairwise_cons.mp h with ⟨hz, hzs⟩
    by_cases hlt : x.2 < z.2
    · simp only [insert_by, decide_eq_true_eq, if_pos hlt]
      refine List.pairwise_cons.mpr ⟨?_, h⟩
      intro b hb
      rcases List.mem_cons.mp hb with hb | hb
      · exact hb ▸ le_of_lt hlt
      · exact le_of_lt (lt_of_lt_of_le hlt (hz b hb))
    · simp only [insert_by, decide_eq_true_eq, if_neg hlt]
      refine List.pairwise_cons.mpr ⟨?_, ih hzs⟩
      intro b hb
      rcases List.mem_cons.mp ((insert_by_perm _ x zs).mem_iff.mp hb) with hb | hb
      · exact hb ▸ le_of_not_lt hlt
      · exact hz b hb

theorem sort_by_sorted (l : List (String × ℚ)) :
    (sort_by (fun a b => decide (a.2 < b.2)) l).Pairwise
      (fun a b => a.2 ≤ b.2) := by
  induction l with
  | nil => simp [sort_by]
  | cons x xs ih => exact insert_by_sorted x _ ih

/-! ### Lemmas: generic list facts -/

theorem sublist_sum_le {l₁ l₂ : List ℚ} (h : l₁.Sublist l₂)
    (h0 : ∀ x ∈ l₂, 0 ≤ x) : l₁.sum ≤ l₂.sum := by
  induction h with
  | slnil => simp
  | cons a hsub ih =>
    have := ih (fun x hx => h0 x (List.mem_cons_of_mem a hx))
    have ha := h0 a (List.mem_cons_self a _)
    simp only [List.sum_cons]
    linarith
  | cons₂ a hsub ih =>
    have := ih (fun x hx => h0 x (List.mem_cons_of_mem a hx))
    simp only [List.sum_cons]
    linarith

theorem forall₂_mem_left {α β : Type} {R : α → β → Prop} {as : List α}
    {bs : List β} (h : List.Forall₂ R as bs) {a : α} (ha : a ∈ as) :
    ∃ b ∈ bs, R a b := by
  induction h with
  | nil => simp at ha
  | cons hR hrest ih =>
    rcases List.mem_cons.mp ha with ha | ha
    · exact ⟨_, List.mem_cons_self _ _, ha ▸ hR⟩
    · rcases ih ha with ⟨b, hb, hRb⟩
      exact ⟨b, List.mem_cons_of_mem _ hb, hRb⟩

theorem forall₂_pairwise {α β : Type} {R : α → β → Prop} {S : β → β → Prop}
    {T : α → α → Prop} {tl : List α} {sub : List β}
    (hf : List.Forall₂ R tl sub) (hp : sub.Pairwise S)
    (himp : ∀ a b x y, R a x → R b y → S x y → T a b) : tl.Pairwise T := by
  induction hf with
  | nil => exact List.Pairwise.nil
  | cons hR hrest ih =>
    rcases List.pairwise_cons.mp hp with ⟨hhead, htail⟩
    refine List.pairwise_cons.mpr ⟨?_, ih htail⟩
    intro b hb
    rcases forall₂_mem_left hrest hb with ⟨y, hy, hRy⟩
    exact himp _ _ _ _ hR hRy (hhead y hy)

/-! ### Lemmas: the SELL leg -/

theorem sell_step_cases {prices : List (String × ℚ)} {af : Bool} {mtn : ℚ}
    {tv : List (String × ℚ)} {st : SellState} {item : String × ℚ}
    {st' : SellState}
    (h : sell_step prices af mtn tv st item = .ok st') :
    st' = st ∨
    ∃ qty price cvv dv,
      need_price prices item.1 = .ok price ∧ 0 < qty ∧ 0 < price ∧
      qty ≤ (dlookup st.qtys item.1).getD 0 ∧ mtn ≤ qty * price ∧
      st'.cash = st.cash + qty * price ∧
      st'.current_values = dinsert st.current_values item.1 cvv ∧
      st'.qtys = dinsert st.qtys item.1
        ((dlookup st.qtys item.1).getD 0 - qty) ∧
      st'.deltas = dinsert st.deltas item.1 dv ∧
      st'.trades = st.trades ++
        [Trade.mk item.1 Side.SELL qty price] := by
  simp only [sell_step] at h
  by_cases h1 : (dlookup st.qtys item.1).getD 0 ≤ 0
  · rw [if_pos h1] at h
    cases h
    exact Or.inl rfl
  · rw [if_neg h1] at h
    rcases hnp : need_price prices item.1 with e | price
    · rw [hnp] at h
      cases h
    · rw [hnp] at h
      dsimp only at h
      by_cases h2 : min (if af = true then -item.2 / price
          else floor_shares (-item.2 / price))
          ((dlookup st.qtys item.1).getD 0) ≤ 0
      · rw [if_pos h2] at h
        cases h
        exact Or.inl rfl
      · rw [if_neg h2] at h
        by_cases h3 : min (if af = true then -item.2 / price
            else floor_shares (-item.2 / price))
            ((dlookup st.qtys item.1).getD 0) * price < mtn
        · rw [if_pos h3] at h
          cases h
          exact Or.inl rfl
        · rw [if_neg h3] at h
          cases h
          exact Or.inr ⟨_, price, _, _, rfl, not_le.mp h2,
            (need_price_ok_priceD hnp).2, min_le_right _ _, not_lt.mp h3,
            rfl, rfl, rfl, rfl, rfl⟩

theorem sell_leg_spec (prices : List (String × ℚ)) (af : Bool) (mtn : ℚ)
    (tv : List (String × ℚ)) :
    ∀ (items : List (String × ℚ)) (st st' : SellState),
      sell_leg prices af mtn tv items st = .ok st' →
      (∀ it ∈ items, it.1 ∈ st.deltas.map Prod.fst) →
      ∃ tl sub,
        st'.trades = st.trades ++ tl ∧
        List.Forall₂ (fun (tr : Trade) (it : String × ℚ) =>
          tr.ticker = it.1) tl sub ∧
        sub.Sublist items ∧
        (∀ tr ∈ tl, tr.side = Side.SELL ∧ 0 < tr.quantity ∧ 0 < tr.price ∧
          mtn ≤ tr.notional ∧
          tr.quantity ≤ (dlookup st.qtys tr.ticker).getD 0) ∧
        st'.cash = st.cash + (tl.map Trade.notional).sum ∧
        (∀ u, (dlookup st'.qtys u).getD 0 ≤ (dlookup st.qtys u).getD 0) ∧
        st'.deltas.map Prod.fst = st.deltas.map Prod.fst := by
  intro items
  induction items with
  | nil =>
    intro st st' h _
    simp only [sell_leg, efold] at h
    cases h
    exact ⟨[], [], by simp, List.Forall₂.nil, List.Sublist.refl _,
      by simp, by simp, fun u => le_refl _, rfl⟩
  | cons item rest ih =>
    intro st st' h hk
    simp only [sell_leg, efold] at h
    rcases hstep : sell_step prices af mtn tv st item with e | st1
    · rw [hstep] at h
      cases h
    · rw [hstep] at h
      dsimp only at h
      have h' : sell_leg prices af mtn tv rest st1 = .ok st' := h
      rcases sell_step_cases hstep with heq | hbig
      · -- skipped item
        rw [heq] at h'
        rcases ih st st' h' (fun it hit => hk it (List.mem_cons_of_mem _ hit))
          with ⟨tl, sub, htr, hf2, hsl, hall, hcash, hq, hdk⟩
        exact ⟨tl, sub, htr, hf2, hsl.trans (List.sublist_cons_self item rest),
          hall, hcash, hq, hdk⟩
      · rcases hbig with ⟨qty, price, cvv, dv, hnp, hqty, hpx, hclamp, hmtn,
          hcash1, hcv1, hq1, hd1, htr1⟩
        have hkeys1 : st1.deltas.map Prod.fst = st.deltas.map Prod.fst := by
          rw [hd1]
          exact keys_dinsert_of_mem dv (hk item (List.mem_cons_self _ _))
        have hmono1 : ∀ u, (dlookup st1.qtys u).getD 0 ≤
            (dlookup st.qtys u).getD 0 := by
          intro u
          rw [hq1]
          by_cases hu : item.1 = u
          · subst hu
            rw [dlookup_dinsert_self]
            simp only [Option.getD_some]
            linarith
          · rw [dlookup_dinsert_ne _ _ hu]
        rcases ih st1 st' h' (fun it hit => by
            rw [hkeys1]
            exact hk it (List.mem_cons_of_mem _ hit))
          with ⟨tl, sub, htr, hf2, hsl, hall, hcash, hq, hdk⟩
        refine ⟨Trade.mk item.1 Side.SELL qty price :: tl, item :: sub,
          ?_, ?_, ?_, ?_, ?_, ?_, ?_⟩
        · rw [htr, htr1]
          simp
        · exact List.Forall₂.cons rfl hf2
        · exact hsl.cons₂ item
        · intro tr htrm
          rcases List.mem_cons.mp htrm with htrm | htrm
          · subst htrm
            exact ⟨rfl, hqty, hpx, by simpa [Trade.notional] using hmtn, hclamp⟩
          · rcases hall tr htrm with ⟨hs, hq', hp', hm', hb'⟩
            exact ⟨hs, hq', hp', hm', le_trans hb' (hmono1 _)⟩
        · rw [hcash, hcash1]
          simp [Trade.notional]
          ring
        · intro u
          exact le_trans (hq u) (hmono1 u)
        · rw [hdk, hkeys1]

/-! ### Lemmas: the BUY leg -/

/-- The invariant of the planned-buys accumulator: duplicate-free keys,
`bought_value` is always quantity times price, every planned quantity is
positive, and every planned per-ticker notional respects the
min-notional threshold. -/
def buy_inv (prices : List (String × ℚ)) (mtn : ℚ) (acc : BuyAcc) : Prop :=
  (acc.qty_acc.map Prod.fst).Nodup ∧
  (∀ t, (dlookup acc.bought_value t).getD 0 =
    (dlookup acc.qty_acc t).getD 0 * priceD prices t) ∧
  (∀ t q, dlookup acc.qty_acc t = some q →
    0 < q ∧ mtn ≤ q * priceD prices t)

theorem buy_inv_empty (prices : List (String × ℚ)) (mtn : ℚ) :
    buy_inv prices mtn ⟨[], []⟩ := by
  refine ⟨by simp, fun t => by simp [dlookup], fun t q h => by simp [dlookup] at h⟩

theorem add_buy_cases {prices : List (String × ℚ)} {mtn : ℚ} {acc : BuyAcc}
    {t : String} {qty : ℚ} {acc' : BuyAcc} {n : ℚ}
    (h : add_buy prices mtn acc t qty = .ok (acc', n)) :
    (acc' = acc ∧ n = 0) ∨
    (∃ px, need_price prices t = .ok px ∧ 0 < qty ∧ n = qty * px ∧
      mtn ≤ n ∧ 0 < n ∧
      acc'.qty_acc = dinsert acc.qty_acc t
        ((dlookup acc.qty_acc t).getD 0 + qty) ∧
      acc'.bought_value = dinsert acc.bought_value t
        ((dlookup acc.bought_value t).getD 0 + n)) := by
  simp only [add_buy] at h
  by_cases h1 : qty ≤ 0
  · rw [if_pos h1] at h
    cases h
    exact Or.inl ⟨rfl, rfl⟩
  · rw [if_neg h1] at h
    rcases hnp : need_price prices t with e | px
    · rw [hnp] at h
      cases h
    · rw [hnp] at h
      dsimp only at h
      by_cases h2 : qty * px < mtn
      · rw [if_pos h2] at h
        cases h
        exact Or.inl ⟨rfl, rfl⟩
      · rw [if_neg h2] at h
        cases h
        have hpx : 0 < px := (need_price_ok_priceD hnp).2
        have hqty : 0 < qty := not_le.mp h1
        exact Or.inr ⟨px, rfl, hqty, rfl, not_lt.mp h2,
          mul_pos hqty hpx, rfl, rfl⟩

theorem add_buy_nsum {prices : List (String × ℚ)} {mtn : ℚ} {acc : BuyAcc}
    {t : String} {qty : ℚ} {acc' : BuyAcc} {n : ℚ}
    (h : add_buy prices mtn acc t qty = .ok (acc', n)) :
    nsum prices acc'.qty_acc = nsum prices acc.qty_acc + n := by
  rcases add_buy_cases h with ⟨rfl, rfl⟩ | ⟨px, hnp, _, hn, _, _, hq, _⟩
  · simp
  · rw [hq, nsum_dinsert_add, (need_price_ok_priceD hnp).1, hn]

theorem add_buy_inv {prices : List (String × ℚ)} {mtn : ℚ} {acc : BuyAcc}
    {t : String} {qty : ℚ} {acc' : BuyAcc} {n : ℚ}
    (h : add_buy prices mtn acc t qty = .ok (acc', n))
    (hinv : buy_inv prices mtn acc) : buy_inv prices mtn acc' := by
  rcases add_buy_cases h with ⟨rfl, rfl⟩ | ⟨px, hnp, hqty, hn, hmtn, hnpos, hq, hb⟩
  · exact hinv
  · rcases hinv with ⟨hnd, hval, hpos⟩
    have hpd : priceD prices t = px := (need_price_ok_priceD hnp).1
    refine ⟨by rw [hq]; exact nodup_keys_dinsert t _ hnd, ?_, ?_⟩
    · intro u
      by_cases hu : t = u
      · subst hu
        rw [hq, hb, dlookup_dinsert_self, dlookup_dinsert_self]
        simp only [Option.getD_some]
        rw [hval t, hpd, hn]
        ring
      · rw [hq, hb, dlookup_dinsert_ne _ _ hu, dlookup_dinsert_ne _ _ hu]
        exact hval u
    · intro u q hlq
      by_cases hu : t = u
      · subst hu
        rw [hq, dlookup_dinsert_self] at hlq
        cases hlq
        constructor
        · rcases hl0 : dlookup acc.qty_acc t with _ | q0
          · simp [hl0]
            exact hqty
          · have := (hpos t q0 hl0).1
            simp [hl0]
            linarith
        · rcases hl0 : dlookup acc.qty_acc t with _ | q0
          · simp only [hl0, Option.getD_none, zero_add]
            rw [hpd, ← hn]
            exact hmtn
          · have h0 := (hpos t q0 hl0).2
            rw [hpd] at h0
            simp only [hl0, Option.getD_some]
            rw [add_mul, hpd]
            nlinarith [hnpos, hn]
      · rw [hq, dlookup_dinsert_ne _ _ hu] at hlq
        exact hpos u q hlq

/-- `need_of` is a sum of clamped-nonnegative terms. -/
theorem need_of_nonneg (deltas : List (String × ℚ)) (ts : List String) :
    0 ≤ need_of deltas ts := by
  unfold need_of
  induction ts with
  | nil => simp
  | cons t ts ih =>
    simp only [List.map_cons, List.sum_cons]
    have : (0:ℚ) ≤ max 0 ((dlookup deltas t).getD 0) := le_max_left _ _
    linarith

theorem sum_max0_nonneg (prices : List (String × ℚ)) (ts : List String) :
    0 ≤ (ts.map (fun t => max 0 (priceD prices t))).sum := by
  induction ts with
  | nil => simp
  | cons t ts ih =>
    simp only [List.map_cons, List.sum_cons]
    have : (0:ℚ) ≤ max 0 (priceD prices t) := le_max_left _ _
    linarith

/-- `floor(x + 1e-12) ≤ x + 1e-12`. -/
theorem floor_shares_le (x : ℚ) : floor_shares x ≤ x + eps := by
  unfold floor_shares
  exact_mod_cast Int.floor_le (x + eps)

theorem level2_ticker_spec {prices : List (String × ℚ)} {mtn : ℚ} {af : Bool}
    {deltas : List (String × ℚ)} {bt nt : ℚ} {s s' : BuyAcc × ℚ} {t : String}
    (h : level2_ticker prices mtn af deltas bt nt s t = .ok s')
    (hbt : 0 < bt) (hnt : 0 < nt) (hinv : buy_inv prices mtn s.1)
    (hns : nsum prices s.1.qty_acc = s.2) :
    buy_inv prices mtn s'.1 ∧ nsum prices s'.1.qty_acc = s'.2 ∧
    s'.2 ≤ s.2 + bt * (max 0 ((dlookup deltas t).getD 0) / nt) +
      eps * max 0 (priceD prices t) := by
  have hepspx : 0 ≤ eps * max 0 (priceD prices t) := by
    have h1 : (0:ℚ) ≤ eps := by norm_num [eps]
    exact mul_nonneg h1 (le_max_left _ _)
  have hbud : 0 ≤ bt * (max 0 ((dlookup deltas t).getD 0) / nt) := by
    have h1 : (0:ℚ) ≤ max 0 ((dlookup deltas t).getD 0) := le_max_left _ _
    positivity
  simp only [level2_ticker] at h
  by_cases h1 : max 0 ((dlookup deltas t).getD 0) ≤ 0
  · rw [if_pos h1] at h
    cases h
    exact ⟨hinv, hns, by linarith⟩
  · rw [if_neg h1] at h
    rcases hnp : need_price prices t with e | px
    · rw [hnp] at h
      cases h
    · rw [hnp] at h
      dsimp only at h
      have hpx : 0 < px := (need_price_ok_priceD hnp).2
      have hpd : priceD prices t = px := (need_price_ok_priceD hnp).1
      by_cases h2 : (if af = true
          then min (bt * (max 0 ((dlookup deltas t).getD 0) / nt))
            (max 0 ((dlookup deltas t).getD 0)) / px
          else floor_shares (min (bt * (max 0 ((dlookup deltas t).getD 0) / nt))
            (max 0 ((dlookup deltas t).getD 0)) / px)) ≤ 0
      · rw [if_pos h2] at h
        cases h
        exact ⟨hinv, hns, by linarith⟩
      · rw [if_neg h2] at h
        rcases hab : add_buy prices mtn s.1 t
            (if af = true
              then min (bt * (max 0 ((dlookup deltas t).getD 0) / nt))
                (max 0 ((dlookup deltas t).getD 0)) / px
              else floor_shares (min (bt * (max 0 ((dlookup deltas t).getD 0) / nt))
                (max 0 ((dlookup deltas t).getD 0)) / px)) with e | pr
        · rw [hab] at h
          cases h
        · rw [hab] at h
          dsimp only at h
          obtain ⟨acc', nn⟩ := pr
          have hinv' : buy_inv prices mtn acc' := add_buy_inv hab hinv
          have hns' : nsum prices acc'.qty_acc = s.2 + nn := by
            rw [add_buy_nsum hab, hns]
          have hbound : nn ≤ bt * (max 0 ((dlookup deltas t).getD 0) / nt) +
              eps * max 0 (priceD prices t) := by
            rcases add_buy_cases hab with ⟨_, rfl⟩ | ⟨px', hnp', _, hn, _, _, _, _⟩
            · linarith
            · have hpx' : px' = px := by
                rw [hnp] at hnp'
                cases hnp'
                rfl
              rw [hpx'] at hn
              set be := min (bt * (max 0 ((dlookup deltas t).getD 0) / nt))
                (max 0 ((dlookup deltas t).getD 0)) with hbe
              have hbele : be ≤ bt * (max 0 ((dlookup deltas t).getD 0) / nt) :=
                min_le_left _ _
              rcases haf : af with _ | _
              · -- af = false : floored quantity
                rw [haf, if_neg Bool.false_ne_true] at hn
                have hfl : floor_shares (be / px) ≤ be / px + eps :=
                  floor_shares_le _
                have : nn ≤ (be / px + eps) * px := by
                  rw [hn]
                  exact mul_le_mul_of_nonneg_right hfl (le_of_lt hpx)
                have hpxne : px ≠ 0 := ne_of_gt hpx
                have hdiv : (be / px + eps) * px = be + eps * px := by
                  field_simp
                rw [hdiv] at this
                rw [hpd, max_eq_right (le_of_lt hpx)]
                linarith
              · -- af = true : exact quantity
                rw [haf, if_pos rfl] at hn
                have hnn : nn = be := by
                  rw [hn, div_mul_cancel₀ _ (ne_of_gt hpx)]
                have hepx : 0 ≤ eps * px := by
                  have h9 : (0:ℚ) ≤ eps := by norm_num [eps]
                  exact mul_nonneg h9 (le_of_lt hpx)
                rw [hpd, max_eq_right (le_of_lt hpx)]
                linarith
          by_cases h3 : 0 < nn
          · rw [if_pos h3] at h
            cases h
            refine ⟨hinv', hns', ?_⟩
            dsimp only
            linarith
          · rw [if_neg h3] at h
            cases h
            have hn0 : nn = 0 := by
              rcases add_buy_cases hab with ⟨_, rfl⟩ | ⟨_, _, _, _, _, hpos, _, _⟩
              · rfl
              · exact absurd hpos h3
            refine ⟨hinv', ?_, ?_⟩
            · dsimp only
              rw [hns', hn0]
              ring
            · dsimp only
              linarith

theorem need_of_cons (deltas : List (String × ℚ)) (t : String)
    (ts : List String) :
    need_of deltas (t :: ts) =
      max 0 ((dlookup deltas t).getD 0) + need_of deltas ts := by
  simp [need_of]

theorem level2_inner_spec {prices : List (String × ℚ)} {mtn : ℚ} {af : Bool}
    {deltas : List (String × ℚ)} {bt nt : ℚ} :
    ∀ (ts : List String) (s s' : BuyAcc × ℚ),
      efold (level2_ticker prices mtn af deltas bt nt) s ts = .ok s' →
      0 < bt → 0 < nt → buy_inv prices mtn s.1 →
      nsum prices s.1.qty_acc = s.2 →
      buy_inv prices mtn s'.1 ∧ nsum prices s'.1.qty_acc = s'.2 ∧
      s'.2 ≤ s.2 + bt * (need_of deltas ts / nt) +
        eps * (ts.map (fun t => max 0 (priceD prices t))).sum := by
  intro ts
  induction ts with
  | nil =>
    intro s s' h _ _ hinv hns
    simp only [efold] at h
    cases h
    exact ⟨hinv, hns, by simp [need_of]⟩
  | cons t rest ih =>
    intro s s' h hbt hnt hinv hns
    simp only [efold] at h
    rcases hstep : level2_ticker prices mtn af deltas bt nt s t with e | s1
    · rw [hstep] at h
      cases h
    · rw [hstep] at h
      dsimp only at h
      rcases level2_ticker_spec hstep hbt hnt hinv hns with ⟨hinv1, hns1, hb1⟩
      rcases ih s1 s' h hbt hnt hinv1 hns1 with ⟨hinv2, hns2, hb2⟩
      refine ⟨hinv2, hns2, ?_⟩
      have hsplit : bt * (need_of deltas (t :: rest) / nt) =
          bt * (max 0 ((dlookup deltas t).getD 0) / nt) +
          bt * (need_of deltas rest / nt) := by
        rw [need_of_cons, add_div, mul_add]
      simp only [List.map_cons, List.sum_cons]
      rw [hsplit]
      have := mul_le_mul_of_nonneg_left (le_refl (1:ℚ)) (le_refl (0:ℚ))
      linarith

theorem level2_type_spec {prices : List (String × ℚ)} {mtn : ℚ} {af : Bool}
    {deltas : List (String × ℚ)} {cash total_need : ℚ} {s s' : BuyAcc × ℚ}
    {grp : String × List String}
    (h : level2_type prices mtn af deltas cash total_need s grp = .ok s')
    (hc : 0 < cash) (htn : 0 < total_need) (hinv : buy_inv prices mtn s.1)
    (hns : nsum prices s.1.qty_acc = s.2) :
    buy_inv prices mtn s'.1 ∧ nsum prices s'.1.qty_acc = s'.2 ∧
    s'.2 ≤ s.2 + cash * (need_of deltas grp.2 / total_need) +
      eps * (grp.2.map (fun t => max 0 (priceD prices t))).sum := by
  have hnonneg : 0 ≤ cash * (need_of deltas grp.2 / total_need) := by
    have := need_of_nonneg deltas grp.2
    positivity
  have hsnonneg : 0 ≤ eps *
      (grp.2.map (fun t => max 0 (priceD prices t))).sum := by
    have h9 : (0:ℚ) ≤ eps := by norm_num [eps]
    exact mul_nonneg h9 (sum_max0_nonneg prices grp.2)
  simp only [level2_type] at h
  by_cases h1 : cash * (need_of deltas grp.2 / total_need) ≤ 0
  · rw [if_pos h1] at h
    cases h
    exact ⟨hinv, hns, by linarith⟩
  · rw [if_neg h1] at h
    by_cases h2 : need_of deltas grp.2 ≤ 0
    · rw [if_pos h2] at h
      cases h
      exact ⟨hinv, hns, by linarith⟩
    · rw [if_neg h2] at h
      have hbt : 0 < cash * (need_of deltas grp.2 / total_need) := not_le.mp h1
      have hnt : 0 < need_of deltas grp.2 := not_le.mp h2
      rcases level2_inner_spec grp.2 s s' h hbt hnt hinv hns
        with ⟨hinv', hns', hb⟩
      refine ⟨hinv', hns', ?_⟩
      rw [div_self (ne_of_gt hnt), mul_one] at hb
      exact hb

theorem level2_fold_spec {prices : List (String × ℚ)} {mtn : ℚ} {af : Bool}
    {deltas : List (String × ℚ)} {cash total_need : ℚ} :
    ∀ (gs : List (String × List String)) (s s' : BuyAcc × ℚ),
      efold (level2_type prices mtn af deltas cash total_need) s gs =
        .ok s' →
      0 < cash → 0 < total_need → buy_inv prices mtn s.1 →
      nsum prices s.1.qty_acc = s.2 →
      buy_inv prices mtn s'.1 ∧ nsum prices s'.1.qty_acc = s'.2 ∧
      s'.2 ≤ s.2 +
        cash * ((gs.map (fun g => need_of deltas g.2)).sum / total_need) +
        eps * (gs.map
          (fun g => (g.2.map (fun t => max 0 (priceD prices t))).sum)).sum := by
  intro gs
  induction gs with
  | nil =>
    intro s s' h _ _ hinv hns
    simp only [efold] at h
    cases h
    exact ⟨hinv, hns, by simp⟩
  | cons g rest ih =>
    intro s s' h hc htn hinv hns
    simp only [efold] at h
    rcases hstep : level2_type prices mtn af deltas cash total_need s g
      with e | s1
    · rw [hstep] at h
      cases h
    · rw [hstep] at h
      dsimp only at h
      rcases level2_type_spec hstep hc htn hinv hns with ⟨hinv1, hns1, hb1⟩
      rcases ih s1 s' h hc htn hinv1 hns1 with ⟨hinv2, hns2, hb2⟩
      refine ⟨hinv2, hns2, ?_⟩
      simp only [List.map_cons, List.sum_cons]
      have hsplit : cash * ((need_of deltas g.2 +
          (rest.map (fun g => need_of deltas g.2)).sum) / total_need) =
          cash * (need_of deltas g.2 / total_need) +
          cash * ((rest.map (fun g => need_of deltas g.2)).sum / total_need) := by
        rw [add_div, mul_add]
      rw [hsplit]
      linarith

/-! ### Lemmas: grouping a list of tickers by asset type -/

theorem append_group_flat_perm (m : List (String × List String))
    (k t : String) :
    List.Perm (((append_group m k t).map Prod.snd).flatten)
      (t :: (m.map Prod.snd).flatten) := by
  induction m with
  | nil => simp [append_group]
  | cons g rest ih =>
    by_cases hk : g.1 = k
    · simp only [append_group, hk, eq_self_iff_true, if_true, List.map_cons,
        List.flatten_cons]
      rw [List.append_assoc]
      exact List.perm_middle
    · simp only [append_group, hk, if_false, List.map_cons, List.flatten_cons]
      exact (ih.append_left g.2).trans List.perm_middle

theorem group_by_type_flat_perm (aty : List (String × String))
    (ts : List String) :
    List.Perm (((group_by_type aty ts).map Prod.snd).flatten) ts := by
  suffices h : ∀ (l : List String) (m : List (String × List String)),
      List.Perm (((l.foldl (fun m t =>
          append_group m ((dlookup aty t).getD "UNKNOWN") t) m).map
        Prod.snd).flatten) ((m.map Prod.snd).flatten ++ l) by
    simpa [group_by_type] using h ts []
  intro l
  induction l with
  | nil =>
    intro m
    simp
  | cons t rest ih =>
    intro m
    simp only [List.foldl_cons]
    refine (ih _).trans ?_
    exact (List.Perm.append_right rest (append_group_flat_perm m _ t)).trans
      List.perm_middle.symm

theorem sum_over_groups (prices : List (String × ℚ))
    (gs : List (String × List String)) :
    (gs.map (fun g => (g.2.map (fun t => max 0 (priceD prices t))).sum)).sum =
      (((gs.map Prod.snd).flatten).map (fun t => max 0 (priceD prices t))).sum := by
  induction gs with
  | nil => simp
  | cons g rest ih => simp [ih]

/-! ### Lemmas: the greedy top-up pass -/

theorem foldl_min_le_init (l : List ℚ) (a : ℚ) : l.foldl min a ≤ a := by
  induction l generalizing a with
  | nil => simp
  | cons x xs ih => exact le_trans (ih (min a x)) (min_le_left a x)

theorem foldl_min_le_mem {l : List ℚ} {x : ℚ} (hx : x ∈ l) (a : ℚ) :
    l.foldl min a ≤ x := by
  induction l generalizing a with
  | nil => simp at hx
  | cons y ys ih =>
    rcases List.mem_cons.mp hx with h | h
    · subst h
      exact le_trans (foldl_min_le_init ys (min a x)) (min_le_right a x)
    · exact ih h (min a y)

theorem foldl_min_pos {l : List ℚ} {a : ℚ} (ha : 0 < a)
    (hl : ∀ x ∈ l, 0 < x) : 0 < l.foldl min a := by
  induction l generalizing a with
  | nil => simpa
  | cons x xs ih =>
    exact ih (lt_min ha (hl x (List.mem_cons_self x xs)))
      (fun y hy => hl y (List.mem_cons_of_mem x hy))

theorem min_price_of_le_mem {prices : List (String × ℚ)} {ts : List String}
    {t : String} (ht : t ∈ ts) :
    min_price_of prices ts ≤ priceD prices t := by
  cases ts with
  | nil => simp at ht
  | cons t0 rest =>
    simp only [min_price_of]
    rcases List.mem_cons.mp ht with h | h
    · exact h ▸ foldl_min_le_init _ _
    · exact foldl_min_le_mem (List.mem_map.mpr ⟨t, h, rfl⟩) _

theorem min_price_of_pos {prices : List (String × ℚ)} {ts : List String}
    (h : ∀ t ∈ ts, 0 < priceD prices t) : 0 < min_price_of prices ts := by
  cases ts with
  | nil => norm_num [min_price_of]
  | cons t0 rest =>
    simp only [min_price_of]
    refine foldl_min_pos (h t0 (List.mem_cons_self _ _)) ?_
    intro x hx
    rcases List.mem_map.mp hx with ⟨u, hu, rfl⟩
    exact h u (List.mem_cons_of_mem _ hu)

theorem select_step_cases {prices : List (String × ℚ)}
    {tv cv bought : List (String × ℚ)} {c : ℚ} {best : Option String × ℚ}
    {t : String} {best' : Option String × ℚ}
    (h : select_step prices tv cv bought c best t = .ok best') :
    (∃ px, need_price prices t = .ok px) ∧
    (best' = best ∨ ∃ px sc, need_price prices t = .ok px ∧ px ≤ c ∧
      best' = (some t, sc)) := by
  simp only [select_step] at h
  rcases hnp : need_price prices t with e | px
  · rw [hnp] at h
    cases h
  · rw [hnp] at h
    dsimp only at h
    refine ⟨⟨px, rfl⟩, ?_⟩
    by_cases h1 : c < px
    · rw [if_pos h1] at h
      cases h
      exact Or.inl rfl
    · rw [if_neg h1] at h
      by_cases h2 : (dlookup tv t).getD 0 ≤ 0
      · rw [if_pos h2] at h
        cases h
        exact Or.inl rfl
      · rw [if_neg h2] at h
        by_cases h3 : (dlookup tv t).getD 0 -
            ((dlookup cv t).getD 0 + (dlookup bought t).getD 0) ≤ 0
        · rw [if_pos h3] at h
          cases h
          exact Or.inl rfl
        · rw [if_neg h3] at h
          by_cases h4 : best.2 < relative_gap tv cv bought t
          · rw [if_pos h4] at h
            cases h
            exact Or.inr ⟨px, _, rfl, not_lt.mp h1, rfl⟩
          · rw [if_neg h4] at h
            cases h
            exact Or.inl rfl

theorem select_fold_priced {prices : List (String × ℚ)}
    {tv cv bought : List (String × ℚ)} {c : ℚ} :
    ∀ (ts : List String) (best r : Option String × ℚ),
      efold (select_step prices tv cv bought c) best ts = .ok r →
      ∀ t ∈ ts, ∃ px, need_price prices t = .ok px := by
  intro ts
  induction ts with
  | nil =>
    intro best r _ t ht
    simp at ht
  | cons t0 rest ih =>
    intro best r h t ht
    simp only [efold] at h
    rcases hstep : select_step prices tv cv bought c best t0 with e | b1
    · rw [hstep] at h
      cases h
    · rw [hstep] at h
      dsimp only at h
      rcases List.mem_cons.mp ht with hh | hh
      · exact hh ▸ (select_step_cases hstep).1
      · exact ih b1 r h t hh

theorem select_fold_some {prices : List (String × ℚ)}
    {tv cv bought : List (String × ℚ)} {c : ℚ} :
    ∀ (ts : List String) (best r : Option String × ℚ),
      efold (select_step prices tv cv bought c) best ts = .ok r →
      ∀ u, r.1 = some u →
        (∃ px, need_price prices u = .ok px ∧ px ≤ c ∧ u ∈ ts) ∨
        best.1 = some u := by
  intro ts
  induction ts with
  | nil =>
    intro best r h u hu
    simp only [efold] at h
    cases h
    exact Or.inr hu
  | cons t0 rest ih =>
    intro best r h u hu
    simp only [efold] at h
    rcases hstep : select_step prices tv cv bought c best t0 with e | b1
    · rw [hstep] at h
      cases h
    · rw [hstep] at h
      dsimp only at h
      rcases ih b1 r h u hu with hin | hb1
      · rcases hin with ⟨px, hpx, hle, hmem⟩
        exact Or.inl ⟨px, hpx, hle, List.mem_cons_of_mem _ hmem⟩
      · rcases (select_step_cases hstep).2 with heq | ⟨px, sc, hpx, hle, heq⟩
        · rw [heq] at hb1
          exact Or.inr hb1
        · rw [heq] at hb1
          simp only at hb1
          cases hb1
          exact Or.inl ⟨px, hpx, hle, List.mem_cons_self _ _⟩

theorem select_best_some {prices : List (String × ℚ)}
    {tv cv bought : List (String × ℚ)} {c : ℚ} {bts : List String}
    {u : String}
    (h : select_best prices tv cv bought c bts = .ok (some u)) :
    ∃ px, need_price prices u = .ok px ∧ px ≤ c ∧ u ∈ bts := by
  simp only [select_best] at h
  rcases hfold : efold (select_step prices tv cv bought c) (none, 0) bts
    with e | r
  · rw [hfold] at h
    cases h
  · rw [hfold] at h
    dsimp only at h
    have hr : r.1 = some u := by
      injection h
    rcases select_fold_some bts (none, 0) r hfold u hr with hin | hbad
    · exact hin
    · simp at hbad

theorem select_best_priced {prices : List (String × ℚ)}
    {tv cv bought : List (String × ℚ)} {c : ℚ} {bts : List String}
    {r : Option String}
    (h : select_best prices tv cv bought c bts = .ok r) :
    ∀ t ∈ bts, ∃ px, need_price prices t = .ok px := by
  simp only [select_best] at h
  rcases hfold : efold (select_step prices tv cv bought c) (none, 0) bts
    with e | r0
  · rw [hfold] at h
    cases h
  · exact select_fold_priced bts (none, 0) r0 hfold

theorem add_buy_one {prices : List (String × ℚ)} {mtn : ℚ} {acc : BuyAcc}
    {t : String} {px : ℚ} (hnp : need_price prices t = .ok px) :
    ∃ acc' n, add_buy prices mtn acc t 1 = .ok (acc', n) ∧
      (n = 0 ∨ n = px) := by
  simp only [add_buy]
  rw [if_neg (by norm_num : ¬ (1:ℚ) ≤ 0), hnp]
  dsimp only
  by_cases h2 : 1 * px < mtn
  · rw [if_pos h2]
    exact ⟨acc, 0, rfl, Or.inl rfl⟩
  · rw [if_neg h2]
    exact ⟨_, _, rfl, Or.inr (one_mul px)⟩

theorem top_up_spec {prices : List (String × ℚ)} {mtn : ℚ}
    {tv cv : List (String × ℚ)} {bts : List String} :
    ∀ (fuel : Nat) (c : ℚ) (acc : BuyAcc) (res : ℚ × BuyAcc × Bool),
      top_up prices mtn tv cv bts fuel c acc = .ok res →
      buy_inv prices mtn acc →
      buy_inv prices mtn res.2.1 ∧
      res.1 + nsum prices res.2.1.qty_acc = c + nsum prices acc.qty_acc ∧
      (0 ≤ c → 0 ≤ res.1) := by
  intro fuel
  induction fuel with
  | zero =>
    intro c acc res h hinv
    simp only [top_up] at h
    cases h
    exact ⟨hinv, rfl, fun hc => hc⟩
  | succ n ih =>
    intro c acc res h hinv
    simp only [top_up] at h
    rcases hsel : select_best prices tv cv acc.bought_value c bts
      with e | ro
    · rw [hsel] at h
      cases h
    · rw [hsel] at h
      rcases ro with _ | t
      · dsimp only at h
        cases h
        exact ⟨hinv, rfl, fun hc => hc⟩
      · dsimp only at h
        rcases select_best_some hsel with ⟨px, hnp, hle, hmem⟩
        rw [hnp] at h
        dsimp only at h
        rw [if_neg (not_lt.mpr hle)] at h
        rcases hab : add_buy prices mtn acc t 1 with e | pr
        · rw [hab] at h
          cases h
        · rw [hab] at h
          dsimp only at h
          obtain ⟨acc', nn⟩ := pr
          have hinv' : buy_inv prices mtn acc' := add_buy_inv hab hinv
          have hnsum : nsum prices acc'.qty_acc =
              nsum prices acc.qty_acc + nn := add_buy_nsum hab
          by_cases hn0 : nn ≤ 0
          · rw [if_pos hn0] at h
            cases h
            refine ⟨hinv', ?_, fun hc => hc⟩
            dsimp only
            have : nn = 0 := by
              rcases add_buy_cases hab with ⟨_, rfl⟩ | ⟨_, _, _, _, _, hp, _, _⟩
              · rfl
              · exact absurd hp (not_lt.mpr hn0)
            rw [hnsum, this]
            ring
          · rw [if_neg hn0] at h
            have hnpx : nn = px := by
              rcases add_buy_cases hab with ⟨_, rfl⟩ | ⟨px', hnp', _, hn, _, _, _, _⟩
              · exact absurd (le_refl 0) hn0
              · rw [hnp] at hnp'
                cases hnp'
                rw [hn, one_mul]
            rcases ih (c - nn) acc' res h hinv' with ⟨hi1, hi2, hi3⟩
            refine ⟨hi1, ?_, ?_⟩
            · rw [hi2, hnsum]
              ring
            · intro _
              refine hi3 ?_
              rw [hnpx]
              linarith

theorem top_up_complete {prices : List (String × ℚ)} {mtn : ℚ}
    {tv cv : List (String × ℚ)} {bts : List String} :
    ∀ (fuel : Nat) (c : ℚ) (acc : BuyAcc) (res : ℚ × BuyAcc × Bool),
      top_up prices mtn tv cv bts (fuel + 1) c acc = .ok res →
      c ≤ (fuel : ℚ) * min_price_of prices bts →
      res.2.2 = true := by
  intro fuel
  induction fuel with
  | zero =>
    intro c acc res h hc
    simp only [Nat.cast_zero, zero_mul] at hc
    simp only [top_up] at h
    rcases hsel : select_best prices tv cv acc.bought_value c bts
      with e | ro
    · rw [hsel] at h
      cases h
    · rw [hsel] at h
      rcases ro with _ | t
      · dsimp only at h
        cases h
        rfl
      · rcases select_best_some hsel with ⟨px, hnp, hle, hmem⟩
        have hpx : 0 < px := (need_price_ok_priceD hnp).2
        linarith
  | succ n ih =>
    intro c acc res h hc
    simp only [top_up] at h
    rcases hsel : select_best prices tv cv acc.bought_value c bts
      with e | ro
    · rw [hsel] at h
      cases h
    · rw [hsel] at h
      rcases ro with _ | t
      · dsimp only at h
        cases h
        rfl
      · dsimp only at h
        rcases select_best_some hsel with ⟨px, hnp, hle, hmem⟩
        rw [hnp] at h
        dsimp only at h
        rw [if_neg (not_lt.mpr hle)] at h
        rcases hab : add_buy prices mtn acc t 1 with e | pr
        · rw [hab] at h
          cases h
        · rw [hab] at h
          dsimp only at h
          obtain ⟨acc', nn⟩ := pr
          by_cases hn0 : nn ≤ 0
          · rw [if_pos hn0] at h
            cases h
            rfl
          · rw [if_neg hn0] at h
            have hnpx : nn = px := by
              rcases add_buy_cases hab with ⟨_, rfl⟩ | ⟨px', hnp', _, hn, _, _, _, _⟩
              · exact absurd (le_refl 0) hn0
              · rw [hnp] at hnp'
                cases hnp'
                rw [hn, one_mul]
            have hm : min_price_of prices bts ≤ px :=
              le_trans (min_price_of_le_mem hmem)
                (le_of_eq (need_price_ok_priceD hnp).1)
            refine ih (c - nn) acc' res h ?_
            have : (n.succ : ℚ) = (n : ℚ) + 1 := by
              push_cast
              ring
            rw [this] at hc
            rw [hnpx]
            nlinarith

/-- The computed fuel always suffices: with `top_up_fuel` the loop never
exhausts its fuel — it always exits through one of its own `break`s or
raises a price error. -/
theorem top_up_fuel_sufficient {prices : List (String × ℚ)} {mtn : ℚ}
    {tv cv : List (String × ℚ)} {bts : List String} {c : ℚ} {acc : BuyAcc}
    {res : ℚ × BuyAcc × Bool}
    (h : top_up prices mtn tv cv bts (top_up_fuel prices bts c) c acc =
      .ok res) : res.2.2 = true := by
  by_cases hm : 0 < min_price_of prices bts
  · refine top_up_complete ((⌈c / min_price_of prices bts⌉).toNat) c acc res
      h ?_
    by_cases hc : c ≤ 0
    · have : (0:ℚ) ≤ ((⌈c / min_price_of prices bts⌉).toNat : ℚ) *
          min_price_of prices bts := by
        positivity
      linarith
    · push_neg at hc
      have hdivpos : 0 < c / min_price_of prices bts := div_pos hc hm
      have hceil : (0:ℤ) ≤ ⌈c / min_price_of prices bts⌉ :=
        le_of_lt (Int.ceil_pos.mpr hdivpos)
      have hcast : ((⌈c / min_price_of prices bts⌉).toNat : ℚ) =
          ((⌈c / min_price_of prices bts⌉ : ℤ) : ℚ) := by
        exact_mod_cast congrArg (fun z : ℤ => (z : ℚ))
          (Int.toNat_of_nonneg hceil)
      rw [hcast]
      have hlc : c / min_price_of prices bts ≤
          ((⌈c / min_price_of prices bts⌉ : ℤ) : ℚ) := Int.le_ceil _
      calc c = (c / min_price_of prices bts) * min_price_of prices bts := by
            field_simp
        _ ≤ ((⌈c / min_price_of prices bts⌉ : ℤ) : ℚ) *
            min_price_of prices bts :=
          mul_le_mul_of_nonneg_right hlc (le_of_lt hm)
  · -- the cheapest looked-up price is nonpositive: the very first
    -- best-ticker scan cannot pick anything (it would have priced every
    -- buy ticker strictly positive, making the minimum positive)
    rcases hfuel : top_up_fuel prices bts c with _ | k
    · simp [top_up_fuel] at hfuel
    · rw [hfuel] at h
      simp only [top_up] at h
      rcases hsel : select_best prices tv cv acc.bought_value c bts
        with e | ro
      · rw [hsel] at h
        cases h
      · rw [hsel] at h
        rcases ro with _ | t
        · dsimp only at h
          cases h
          rfl
        · exfalso
          refine hm (min_price_of_pos ?_)
          intro u hu
          rcases select_best_priced hsel u hu with ⟨px, hpx⟩
          rcases need_price_ok_priceD hpx with ⟨hpd, hpos⟩
          rw [hpd]
          exact hpos

/-! ### Lemmas: BUY-trade emission and the whole BUY leg -/

theorem emit_fold_spec {prices : List (String × ℚ)} :
    ∀ (m : List (String × ℚ)) (ts0 ts' : List Trade),
      efold (emit_step prices) ts0 m = .ok ts' →
      ∃ new, ts' = ts0 ++ new ∧
        List.Forall₂ (fun (tr : Trade) (p : String × ℚ) =>
          tr.ticker = p.1 ∧ tr.quantity = p.2 ∧ tr.side = Side.BUY ∧
          tr.price = priceD prices p.1) new m := by
  intro m
  induction m with
  | nil =>
    intro ts0 ts' h
    simp only [efold] at h
    cases h
    exact ⟨[], by simp, List.Forall₂.nil⟩
  | cons p rest ih =>
    intro ts0 ts' h
    simp only [efold, emit_step] at h
    rcases hnp : need_price prices p.1 with e | px
    · rw [hnp] at h
      cases h
    · rw [hnp] at h
      dsimp only at h
      rcases ih _ _ h with ⟨new, hts, hf⟩
      refine ⟨Trade.mk p.1 Side.BUY p.2 px :: new, ?_, ?_⟩
      · rw [hts]
        simp
      · exact List.Forall₂.cons
          ⟨rfl, rfl, rfl, ((need_price_ok_priceD hnp).1).symm⟩ hf

theorem emit_notional_sum {prices : List (String × ℚ)}
    {new : List Trade} {m : List (String × ℚ)}
    (h : List.Forall₂ (fun (tr : Trade) (p : String × ℚ) =>
      tr.ticker = p.1 ∧ tr.quantity = p.2 ∧ tr.side = Side.BUY ∧
      tr.price = priceD prices p.1) new m) :
    (new.map Trade.notional).sum = nsum prices m := by
  induction h with
  | nil => simp [nsum]
  | cons hr hrest ih =>
    rcases hr with ⟨ht, hq, _, hp⟩
    simp only [List.map_cons, List.sum_cons, nsum, Trade.notional] at ih ⊢
    rw [ih, hq, hp]

theorem buy_two_level_spec {prices : List (String × ℚ)}
    {aty : List (String × String)} {af : Bool} {mtn : ℚ} {cash : ℚ}
    {deltas tvs cvs : List (String × ℚ)} {bts : List Trade} {cash' : ℚ}
    (h : buy_two_level prices aty af mtn cash deltas tvs cvs =
      .ok (bts, cash')) :
    (∀ tr ∈ bts, tr.side = Side.BUY ∧ mtn ≤ tr.notional ∧
      0 < tr.quantity) ∧
    (bts.map Trade.notional).sum = cash - cash' ∧
    (bts.map Trade.notional).sum ≤ max 0 cash +
      eps * (((deltas.filter (fun p => decide (0 < p.2))).map Prod.fst).map
        (fun t => max 0 (priceD prices t))).sum := by
  have hS : 0 ≤ (((deltas.filter (fun p => decide (0 < p.2))).map
      Prod.fst).map (fun t => max 0 (priceD prices t))).sum :=
    sum_max0_nonneg prices _
  have heps : (0:ℚ) ≤ eps := by norm_num [eps]
  have hepsS : 0 ≤ eps * (((deltas.filter
      (fun p => decide (0 < p.2))).map Prod.fst).map
      (fun t => max 0 (priceD prices t))).sum := mul_nonneg heps hS
  simp only [buy_two_level] at h
  by_cases h1 : cash ≤ 0 ∨
      (deltas.filter (fun p => decide (0 < p.2))).map Prod.fst = []
  · rw [if_pos h1] at h
    cases h
    refine ⟨by simp, by simp, ?_⟩
    simp only [List.map_nil, List.sum_nil]
    have := le_max_left (0:ℚ) cash
    linarith
  · rw [if_neg h1] at h
    push_neg at h1
    have hc : 0 < cash := h1.1
    by_cases h2 : ((group_by_type aty ((deltas.filter
        (fun p => decide (0 < p.2))).map Prod.fst)).map
        (fun g => need_of deltas g.2)).sum ≤ 0
    · rw [if_pos h2] at h
      cases h
      refine ⟨by simp, by simp, ?_⟩
      simp only [List.map_nil, List.sum_nil]
      have := le_max_left (0:ℚ) cash
      linarith
    · rw [if_neg h2] at h
      have htn : 0 < ((group_by_type aty ((deltas.filter
          (fun p => decide (0 < p.2))).map Prod.fst)).map
          (fun g => need_of deltas g.2)).sum := not_le.mp h2
      rcases hl2 : efold (level2_type prices mtn af deltas cash
          (((group_by_type aty ((deltas.filter
            (fun p => decide (0 < p.2))).map Prod.fst)).map
            (fun g => need_of deltas g.2)).sum))
          (⟨[], []⟩, 0)
          (group_by_type aty ((deltas.filter
            (fun p => decide (0 < p.2))).map Prod.fst)) with e | s2
      · rw [hl2] at h
        cases h
      · rw [hl2] at h
        dsimp only at h
        obtain ⟨acc, spent⟩ := s2
        rcases level2_fold_spec _ _ _ hl2 hc htn
          (buy_inv_empty prices mtn) (by simp [nsum])
          with ⟨hinv, hns, hb⟩
        simp only at hns hb
        rw [div_self (ne_of_gt htn), mul_one] at hb
        have hsum_groups : ((group_by_type aty ((deltas.filter
            (fun p => decide (0 < p.2))).map Prod.fst)).map
            (fun g => (g.2.map (fun t => max 0 (priceD prices t))).sum)).sum =
            (((deltas.filter (fun p => decide (0 < p.2))).map Prod.fst).map
              (fun t => max 0 (priceD prices t))).sum := by
          rw [sum_over_groups]
          exact List.Perm.sum_eq (List.Perm.map _
            (group_by_type_flat_perm aty _))
        rw [hsum_groups] at hb
        -- hb : spent ≤ 0 + cash + eps * S
        rcases htop : (if af = false ∧ 0 < cash - spent then
            top_up prices mtn tvs cvs
              ((deltas.filter (fun p => decide (0 < p.2))).map Prod.fst)
              (top_up_fuel prices
                ((deltas.filter (fun p => decide (0 < p.2))).map Prod.fst)
                (cash - spent))
              (cash - spent) acc
          else .ok (cash - spent, acc, true)) with e | s3
        · rw [htop] at h
          cases h
        · rw [htop] at h
          dsimp only at h
          obtain ⟨c2, acc2, flag⟩ := s3
          have hafter : (buy_inv prices mtn acc2 ∧
              nsum prices acc2.qty_acc = cash - c2 ∧ 0 ≤ c2) ∨
              (c2 = cash - spent ∧ acc2 = acc) := by
            by_cases hcond : af = false ∧ 0 < cash - spent
            · rw [if_pos hcond] at htop
              rcases top_up_spec _ _ _ _ htop hinv with ⟨ht1, ht2, ht3⟩
              refine Or.inl ⟨ht1, ?_, ht3 (le_of_lt hcond.2)⟩
              simp only at ht2
              rw [hns] at ht2
              linarith
            · rw [if_neg hcond] at htop
              cases htop
              exact Or.inr ⟨rfl, rfl⟩
          rcases hem : emit_buys prices acc2.qty_acc with e | trades
          · rw [hem] at h
            cases h
          · rw [hem] at h
            cases h
            simp only [emit_buys] at hem
            rcases emit_fold_spec _ _ _ hem with ⟨new, hnew, hf⟩
            simp only [List.nil_append] at hnew
            subst hnew
            have hinv2 : buy_inv prices mtn acc2 := by
              rcases hafter with ⟨hi, _, _⟩ | ⟨_, rfl⟩
              · exact hi
              · exact hinv
            have hsum : (bts.map Trade.notional).sum =
                nsum prices acc2.qty_acc := emit_notional_sum hf
            refine ⟨?_, ?_, ?_⟩
            · intro tr htr
              rcases forall₂_mem_left hf htr with ⟨p, hp, ht, hq, hside, hpr⟩
              have hlk : dlookup acc2.qty_acc p.1 = some p.2 :=
                dlookup_of_mem_nodup hp hinv2.1
              rcases hinv2.2.2 p.1 p.2 hlk with ⟨hqpos, hmin⟩
              refine ⟨hside, ?_, by rw [hq]; exact hqpos⟩
              rw [Trade.notional, hq, hpr]
              exact hmin
            · rw [hsum]
              rcases hafter with ⟨_, he, _⟩ | ⟨rfl, rfl⟩
              · exact he
              · rw [hns]
                ring
            · rw [hsum]
              rcases hafter with ⟨_, he, hge⟩ | ⟨rfl, rfl⟩
              · rw [he]
                have hmax := le_max_right (0:ℚ) cash
                linarith
              · rw [hns]
                have hmax := le_max_right (0:ℚ) cash
                linarith

/-! ### Lemmas: valuation and the whole engine -/

theorem map_fst_pairs {β : Type} (l : List String) (f : String → β) :
    ((l.map (fun t => (t, f t))).map Prod.fst) = l := by
  induction l with
  | nil => rfl
  | cons t ts ih => simp [ih]

theorem current_values_keys {prices : List (String × ℚ)} :
    ∀ {qbt cv : List (String × ℚ)},
      current_values prices qbt = .ok cv →
      cv.map Prod.fst = (qbt.filter (fun p => decide (0 < p.2))).map Prod.fst := by
  intro qbt
  induction qbt with
  | nil =>
    intro cv h
    simp only [current_values] at h
    cases h
    rfl
  | cons p rest ih =>
    intro cv h
    obtain ⟨t, qty⟩ := p
    simp only [current_values] at h
    by_cases h1 : qty ≤ 0
    · rw [if_pos h1] at h
      have : (decide (0 < qty)) = false := by
        simp [not_lt.mpr h1]
      simp only [List.filter_cons, this, if_false]
      exact ih h
    · rw [if_neg h1] at h
      rcases hnp : need_price prices t with e | px
      · rw [hnp] at h
        cases h
      · rw [hnp] at h
        rcases hcv : current_values prices rest with e | cvs
        · rw [hcv] at h
          cases h
        · rw [hcv] at h
          dsimp only at h
          cases h
          have : (decide (0 < qty)) = true := by
            simp [not_le.mp h1]
          simp only [List.filter_cons, this, if_true, List.map_cons]
          rw [ih hcv]

theorem valuation_ok_elim {pf : Portfolio} {tg : TargetAllocation}
    {prices : List (String × ℚ)} {v : Valuation}
    (h : valuation pf tg prices = .ok v) :
    current_values prices (qty_by_ticker pf) = .ok v.current_values ∧
    v.univ = universe0 pf tg ∧
    v.deltas.map Prod.fst = v.univ ∧
    v.deltas = v.univ.map (fun t => (t, v.total_value * tg.weight t -
      (dlookup v.current_values t).getD 0)) ∧
    v.target_values = v.univ.map (fun t => (t, v.total_value * tg.weight t)) ∧
    v.univ.Nodup := by
  simp only [valuation] at h
  rcases hcv : current_values prices (qty_by_ticker pf) with e | cv
  · rw [hcv] at h
    cases h
  · rw [hcv] at h
    dsimp only at h
    cases h
    refine ⟨rfl, ?_, map_fst_pairs _ _, rfl, rfl, List.nodup_dedup _⟩
    simp only [universe_of, universe0]
    rw [current_values_keys hcv]

/-- Inversion of a successful `rebalance` run into the facts the
properties need: the trade list is the SELL trades followed by the BUY
trades, each part with its generation facts, plus exact cash accounting
and the epsilon-bounded BUY-leg spending bound. -/
theorem rebalance_parts {pf : Portfolio} {tg : TargetAllocation}
    {prices : List (String × ℚ)} {mode : String} {af : Bool} {mtn : ℚ}
    {r : RebalanceResult}
    (h : rebalance pf tg prices mode af mtn = .ok r) :
    ∃ v sells buys,
      valuation pf tg prices = .ok v ∧
      r.trades = sells ++ buys ∧
      r.cash_before = pf.cash ∧
      (∃ sub, List.Forall₂ (fun (tr : Trade) (it : String × ℚ) =>
          tr.ticker = it.1) sells sub ∧
        sub.Sublist (sort_by (fun a b => decide (a.2 < b.2))
          (v.deltas.filter (fun p => decide (p.2 < 0))))) ∧
      (∀ tr ∈ sells, tr.side = Side.SELL ∧ 0 < tr.quantity ∧
        0 < tr.price ∧ mtn ≤ tr.notional ∧
        tr.quantity ≤ (dlookup (qty_by_ticker pf) tr.ticker).getD 0) ∧
      (∀ tr ∈ buys, tr.side = Side.BUY ∧ mtn ≤ tr.notional ∧
        0 < tr.quantity) ∧
      r.cash_after = pf.cash + (sells.map Trade.notional).sum -
        (buys.map Trade.notional).sum ∧
      (buys.map Trade.notional).sum ≤
        max 0 (pf.cash + (sells.map Trade.notional).sum) +
        eps * ((universe0 pf tg).map
          (fun t => max 0 (priceD prices t))).sum := by
  simp only [rebalance] at h
  by_cases hmode : mode_norm mode ≠ "BUY" ∧ mode_norm mode ≠ "TRADE" ∧
      mode_norm mode ≠ "SELL"
  · rw [if_pos hmode] at h
    cases h
  · rw [if_neg hmode] at h
    rcases hv : valuation pf tg prices with e | v
    · rw [hv] at h
      cases h
    · rw [hv] at h
      dsimp only at h
      rcases valuation_ok_elim hv with ⟨hcv, huniv, hdk, hdel, htv, hnd⟩
      -- the state after the (possibly skipped) SELL leg
      have hst : ∃ st : SellState,
          (if mode_norm mode = "SELL" ∨ mode_norm mode = "TRADE" then
            sell_leg prices af mtn v.target_values
              (sort_by (fun a b => decide (a.2 < b.2))
                (v.deltas.filter (fun p => decide (p.2 < 0))))
              { cash := pf.cash, current_values := v.current_values,
                qtys := qty_by_ticker pf, deltas := v.deltas, trades := [] }
          else .ok { cash := pf.cash, current_values := v.current_values,
                     qtys := qty_by_ticker pf, deltas := v.deltas,
                     trades := [] }) = .ok st ∧
          ∃ tl sub,
            st.trades = tl ∧
            List.Forall₂ (fun (tr : Trade) (it : String × ℚ) =>
              tr.ticker = it.1) tl sub ∧
            sub.Sublist (sort_by (fun a b => decide (a.2 < b.2))
              (v.deltas.filter (fun p => decide (p.2 < 0)))) ∧
            (∀ tr ∈ tl, tr.side = Side.SELL ∧ 0 < tr.quantity ∧
              0 < tr.price ∧ mtn ≤ tr.notional ∧
              tr.quantity ≤ (dlookup (qty_by_ticker pf) tr.ticker).getD 0) ∧
            st.cash = pf.cash + (tl.map Trade.notional).sum ∧
            st.deltas.map Prod.fst = v.deltas.map Prod.fst := by
        by_cases hm : mode_norm mode = "SELL" ∨ mode_norm mode = "TRADE"
        · rcases hsl : sell_leg prices af mtn v.target_values
              (sort_by (fun a b => decide (a.2 < b.2))
                (v.deltas.filter (fun p => decide (p.2 < 0))))
              { cash := pf.cash, current_values := v.current_values,
                qtys := qty_by_ticker pf, deltas := v.deltas,
                trades := [] } with e | st
          · rw [if_pos hm] at h ⊢
            rw [hsl] at h
            cases h
          · rcases sell_leg_spec prices af mtn v.target_values _ _ _ hsl
              (fun it hit => by
                have h1 : it ∈ v.deltas.filter (fun p => decide (p.2 < 0)) :=
                  (sort_by_perm _ _).mem_iff.mp hit
                have h2 : it ∈ v.deltas := List.mem_of_mem_filter h1
                exact List.mem_map.mpr ⟨it, h2, rfl⟩)
              with ⟨tl, sub, htr, hf2, hsub, hall, hcash, hq, hdk2⟩
            rw [if_pos hm]
            refine ⟨st, rfl, tl, sub, by simpa using htr, hf2, hsub,
              hall, by simpa using hcash, hdk2⟩
        · rw [if_neg hm]
          exact ⟨_, rfl, [], [], rfl, List.Forall₂.nil, List.nil_sublist _,
            by simp, by simp, rfl⟩
      rcases hst with ⟨st, hstep, tl, sub, htl, hf2, hsub, hall, hcash, hdk2⟩
      rw [hstep] at h
      dsimp only at h
      -- the BUY leg
      by_cases hm2 : mode_norm mode = "BUY" ∨ mode_norm mode = "TRADE"
      · rw [if_pos hm2] at h
        rcases hbl : buy_two_level prices (asset_type_map pf) af mtn st.cash
            st.deltas v.target_values st.current_values with e | pr
        · rw [hbl] at h
          cases h
        · rw [hbl] at h
          dsimp only at h
          obtain ⟨buys, cash2⟩ := pr
          cases h
          rcases buy_two_level_spec hbl with ⟨hbuys, hsum, hbound⟩
          refine ⟨v, tl, buys, rfl, by dsimp only; rw [htl], rfl,
            ⟨sub, hf2, hsub⟩, hall, fun tr htr => hbuys tr htr, ?_, ?_⟩
          · dsimp only
            rw [hcash] at hsum
            linarith
          · have hsublist : ((st.deltas.filter
                (fun p => decide (0 < p.2))).map Prod.fst).Sublist
                (universe0 pf tg) := by
              have h1 : (st.deltas.filter
                  (fun p => decide (0 < p.2))).Sublist st.deltas :=
                List.filter_sublist _
              have h2 := h1.map Prod.fst
              rw [hdk2, hdk, huniv] at h2
              exact h2
            have hSle : (((st.deltas.filter
                (fun p => decide (0 < p.2))).map Prod.fst).map
                (fun t => max 0 (priceD prices t))).sum ≤
                ((universe0 pf tg).map
                  (fun t => max 0 (priceD prices t))).sum := by
              refine sublist_sum_le (hsublist.map _) ?_
              intro x hx
              rcases List.mem_map.mp hx with ⟨u, _, rfl⟩
              exact le_max_left _ _
            have heps : (0:ℚ) ≤ eps := by norm_num [eps]
            rw [hcash] at hbound
            have := mul_le_mul_of_nonneg_left hSle heps
            linarith
      · rw [if_neg hm2] at h
        dsimp only at h
        cases h
        refine ⟨v, tl, [], rfl, by dsimp only; rw [htl], rfl,
          ⟨sub, hf2, hsub⟩, hall, by simp, ?_, ?_⟩
        · dsimp only
          rw [hcash]
          simp
        · simp only [List.map_nil, List.sum_nil]
          have h1 : (0:ℚ) ≤ max 0 (pf.cash + (tl.map Trade.notional).sum) :=
            le_max_left _ _
          have heps : (0:ℚ) ≤ eps := by norm_num [eps]
          have h2 : 0 ≤ eps * ((universe0 pf tg).map
              (fun t => max 0 (priceD prices t))).sum :=
            mul_nonneg heps (sum_max0_nonneg prices _)
          linarith

theorem side_notional_split {sells buys : List Trade}
    (hs : ∀ tr ∈ sells, tr.side = Side.SELL)
    (hb : ∀ tr ∈ buys, tr.side = Side.BUY) :
    side_notional Side.SELL (sells ++ buys) =
      (sells.map Trade.notional).sum ∧
    side_notional Side.BUY (sells ++ buys) =
      (buys.map Trade.notional).sum := by
  constructor
  · unfold side_notional
    rw [List.filter_append]
    have h1 : sells.filter (fun t => decide (t.side = Side.SELL)) = sells :=
      List.filter_eq_self.mpr (fun tr htr => by simp [hs tr htr])
    have h2 : buys.filter (fun t => decide (t.side = Side.SELL)) = [] :=
      List.filter_eq_nil.mpr (fun tr htr => by simp [hb tr htr])
    rw [h1, h2]
    simp
  · unfold side_notional
    rw [List.filter_append]
    have h1 : sells.filter (fun t => decide (t.side = Side.BUY)) = [] :=
      List.filter_eq_nil.mpr (fun tr htr => by simp [hs tr htr])
    have h2 : buys.filter (fun t => decide (t.side = Side.BUY)) = buys :=
      List.filter_eq_self.mpr (fun tr htr => by simp [hb tr htr])
    rw [h1, h2]
    simp

/-! ### The claims -/

/-- C1: for every successful call to `rebalance`, the returned
`cash_after` equals `cash_before` plus the total notional of the SELL
trades in the returned list minus the total notional of the BUY trades
— exactly, over the exact rationals that idealise the source's floats —
for every mode, `allow_fractional` setting and `min_trade_notional`. -/
theorem C1_value_conservation {pf : Portfolio} {tg : TargetAllocation}
    {prices : List (String × ℚ)} {mode : String} {af : Bool} {mtn : ℚ}
    {r : RebalanceResult}
    (h : rebalance pf tg prices mode af mtn = .ok r) :
    r.cash_after = r.cash_before +
      side_notional Side.SELL r.trades - side_notional Side.BUY r.trades := by
  rcases rebalance_parts h with ⟨v, sells, buys, _, htr, hbefore, _, hsells,
    hbuys, hafter, _⟩
  rcases side_notional_split (fun tr htr => (hsells tr htr).1)
    (fun tr htr => (hbuys tr htr).1) with ⟨hS, hB⟩
  rw [htr, hS, hB, hbefore, hafter]

/-- C1 witness: the spec's §8 BUY scenario, evaluated concretely. -/
theorem C1_value_conservation_witness :
    rebalance ex_pf1 ex_tg1 ex_pr1 "BUY" false 0 = .ok ex_r1 ∧
    ex_r1.cash_after = ex_r1.cash_before +
      side_notional Side.SELL ex_r1.trades -
      side_notional Side.BUY ex_r1.trades :=
  ⟨by with_unfolding_all rfl,
   @C1_value_conservation ex_pf1 ex_tg1 ex_pr1 "BUY" false 0 ex_r1
     (by with_unfolding_all rfl)⟩

/-- C3: every SELL trade a successful `rebalance` emits sells at most
the quantity the portfolio holds of that ticker.  Because each ticker
appears at most once among the sell items, the held quantity at the
moment the trade is generated is the portfolio's (dict-semantics) held
quantity, so the clamp bounds every SELL trade by it. -/
theorem C3_no_oversell {pf : Portfolio} {tg : TargetAllocation}
    {prices : List (String × ℚ)} {mode : String} {af : Bool} {mtn : ℚ}
    {r : RebalanceResult}
    (h : rebalance pf tg prices mode af mtn = .ok r) :
    ∀ tr ∈ r.trades, tr.side = Side.SELL →
      tr.quantity ≤ (dlookup (qty_by_ticker pf) tr.ticker).getD 0 := by
  rcases rebalance_parts h with ⟨v, sells, buys, _, htr, _, _, hsells,
    hbuys, _, _⟩
  intro tr htrm hside
  rw [htr] at htrm
  rcases List.mem_append.mp htrm with hm | hm
  · exact (hsells tr hm).2.2.2.2
  · have := (hbuys tr hm).1
    rw [hside] at this
    cases this

/-- C3 witness: the spec's §8 SELL scenario. -/
theorem C3_no_oversell_witness :
    rebalance ex_pf1 ex_tg3 ex_pr3 "SELL" false 0 = .ok ex_r3 ∧
    Trade.mk "AAA" Side.SELL 10 10 ∈ ex_r3.trades ∧
    (Trade.mk "AAA" Side.SELL 10 10).quantity ≤
      (dlookup (qty_by_ticker ex_pf1) "AAA").getD 0 :=
  ⟨by with_unfolding_all rfl,
   by with_unfolding_all decide,
   @C3_no_oversell ex_pf1 ex_tg3 ex_pr3 "SELL" false 0 ex_r3
     (by with_unfolding_all rfl)
     (Trade.mk "AAA" Side.SELL 10 10)
     (by with_unfolding_all decide) rfl⟩

/-- C5: no trade emitted by `rebalance` — SELL or BUY, including the
quantities accumulated across the level-2 pass and the one-unit top-up
purchases — has notional strictly below `min_trade_notional`. -/
theorem C5_min_notional {pf : Portfolio} {tg : TargetAllocation}
    {prices : List (String × ℚ)} {mode : String} {af : Bool} {mtn : ℚ}
    {r : RebalanceResult}
    (h : rebalance pf tg prices mode af mtn = .ok r) :
    ∀ tr ∈ r.trades, mtn ≤ tr.notional := by
  rcases rebalance_parts h with ⟨v, sells, buys, _, htr, _, _, hsells,
    hbuys, _, _⟩
  intro tr htrm
  rw [htr] at htrm
  rcases List.mem_append.mp htrm with hm | hm
  · exact (hsells tr hm).2.2.2.1
  · exact (hbuys tr hm).2.1

/-- C5 witness: the §8 BUY scenario with a min-notional of 50; the one
emitted trade has notional 100. -/
theorem C5_min_notional_witness :
    rebalance ex_pf1 ex_tg1 ex_pr1 "BUY" false 50 = .ok ex_r1 ∧
    (50:ℚ) ≤ (Trade.mk "BBB" Side.BUY 5 20).notional :=
  ⟨by with_unfolding_all rfl,
   @C5_min_notional ex_pf1 ex_tg1 ex_pr1 "BUY" false 50 ex_r1
     (by with_unfolding_all rfl)
     (Trade.mk "BBB" Side.BUY 5 20) (by with_unfolding_all decide)⟩

/-- C4: the greedy top-up loop always terminates.  The loop is embedded
with explicit fuel and a flag that is `false` exactly when the fuel ran
out; with the fuel `rebalance` actually uses (one more than
`⌈cash_left / cheapest eligible price⌉`, each iteration spending at
least that cheapest price), the flag of every successful run is `true`,
so the loop always exits by its own `break`s (or raises a price
error). -/
theorem C4_top_up_terminates {prices : List (String × ℚ)} {mtn : ℚ}
    {tv cv : List (String × ℚ)} {bts : List String} {c : ℚ} {acc : BuyAcc}
    {res : ℚ × BuyAcc × Bool}
    (h : top_up prices mtn tv cv bts (top_up_fuel prices bts c) c acc =
      .ok res) : res.2.2 = true :=
  top_up_fuel_sufficient h

/-- C4 witness: a concrete top-up run — 10 of cash, one ticker at price
3 — buys three units and exits with the completion flag set. -/
theorem C4_top_up_terminates_witness :
    top_up ex_pr4 0 ex_tv4 [] ["BBB"]
      (top_up_fuel ex_pr4 ["BBB"] 10) 10 ⟨[], []⟩ =
      .ok (1, ex_acc4, true) ∧
    ((1 : ℚ), ex_acc4, true).2.2 = true :=
  ⟨by with_unfolding_all rfl,
   @C4_top_up_terminates ex_pr4 0 ex_tv4 [] ["BBB"] 10 ⟨[], []⟩
     (1, ex_acc4, true) (by with_unfolding_all rfl)⟩

/-- C6: if every delta of the valuation is zero (the portfolio is
exactly at target weights under the supplied prices), a successful
`rebalance` returns no trades and leaves cash unchanged, for every mode
and every setting of `allow_fractional` and `min_trade_notional`. -/
theorem C6_idempotent_at_target {pf : Portfolio} {tg : TargetAllocation}
    {prices : List (String × ℚ)} {mode : String} {af : Bool} {mtn : ℚ}
    {v : Valuation} {r : RebalanceResult}
    (hv : valuation pf tg prices = .ok v)
    (hz : ∀ p ∈ v.deltas, p.2 = 0)
    (h : rebalance pf tg prices mode af mtn = .ok r) :
    r.trades = [] ∧ r.cash_after = r.cash_before := by
  have hfilter : v.deltas.filter (fun p => decide (p.2 < 0)) = [] :=
    List.filter_eq_nil.mpr (fun p hp => by simp [hz p hp])
  have hfilter2 : v.deltas.filter (fun p => decide (0 < p.2)) = [] :=
    List.filter_eq_nil.mpr (fun p hp => by simp [hz p hp])
  simp only [rebalance] at h
  by_cases hmode : mode_norm mode ≠ "BUY" ∧ mode_norm mode ≠ "TRADE" ∧
      mode_norm mode ≠ "SELL"
  · rw [if_pos hmode] at h
    cases h
  · rw [if_neg hmode] at h
    rw [hv] at h
    dsimp only at h
    rw [hfilter] at h
    simp only [sort_by, sell_leg, efold, ite_self] at h
    simp only [buy_two_level] at h
    rw [hfilter2] at h
    simp only [List.map_nil, or_true, if_true, ite_self] at h
    cases h
    exact ⟨rfl, rfl⟩

/-- C6 witness: a portfolio already at its target weights, run in TRADE
mode. -/
theorem C6_idempotent_at_target_witness :
    valuation ex_pf1 ex_tg6 ex_pr3 = .ok ex_v6 ∧
    (∀ p ∈ ex_v6.deltas, p.2 = 0) ∧
    rebalance ex_pf1 ex_tg6 ex_pr3 "TRADE" false 0 = .ok ex_r6 ∧
    (ex_r6.trades = [] ∧ ex_r6.cash_after = ex_r6.cash_before) :=
  ⟨by with_unfolding_all rfl,
   by with_unfolding_all decide,
   by with_unfolding_all rfl,
   @C6_idempotent_at_target ex_pf1 ex_tg6 ex_pr3 "TRADE" false 0 ex_v6 ex_r6
     (by with_unfolding_all rfl)
     (by with_unfolding_all decide) (by with_unfolding_all rfl)⟩

/-- C2 counterexample: the claim "cumulative BUY notional never exceeds
the cash available at the start of the BUY leg; hence non-negative
starting cash gives non-negative `cash_after`" is false as stated.
With cash 1 and the price `ex_q2` (for which `1/ex_q2 = 2 − 1e-12`),
the epsilon-biased floor `floor(x + 1e-12)` rounds the quantity up to 2
whole units, the single BUY notional `2·ex_q2` exceeds the starting
cash 1, and `cash_after = 1 − 2·ex_q2 < 0` although `cash_before = 1 ≥ 0`. -/
theorem C2_no_overdraft_counterexample :
    rebalance ex_pf2 ex_tg2 ex_pr2 "BUY" false 0 =
      .ok ⟨[Trade.mk "BBB" Side.BUY 2 ex_q2], 1, 1 - 2 * ex_q2⟩ ∧
    side_notional Side.BUY [Trade.mk "BBB" Side.BUY 2 ex_q2] = 2 * ex_q2 ∧
    1 < 2 * ex_q2 ∧
    (0:ℚ) ≤ 1 ∧
    1 - 2 * ex_q2 < 0 := by
  refine ⟨by with_unfolding_all rfl, by with_unfolding_all rfl, ?_, ?_, ?_⟩
  · rw [ex_q2]
    norm_num
  · norm_num
  · rw [ex_q2]
    norm_num

/-- C2 amended: the cumulative BUY notional can exceed the cash
available at the start of the BUY leg (the portfolio's cash plus the
SELL proceeds) only through the epsilon bias of the whole-unit floor:
it never exceeds `max 0 (starting cash)` by more than `1e-12` times the
sum of the (clamped-nonnegative) prices of the universe's tickers, and
consequently, whenever the starting cash is non-negative, `cash_after`
is bounded below by minus that epsilon term. -/
theorem C2_no_overdraft_amended {pf : Portfolio} {tg : TargetAllocation}
    {prices : List (String × ℚ)} {mode : String} {af : Bool} {mtn : ℚ}
    {r : RebalanceResult}
    (h : rebalance pf tg prices mode af mtn = .ok r) :
    side_notional Side.BUY r.trades ≤
      max 0 (r.cash_before + side_notional Side.SELL r.trades) +
      eps * ((universe0 pf tg).map (fun t => max 0 (priceD prices t))).sum ∧
    (0 ≤ r.cash_before →
      -(eps * ((universe0 pf tg).map
          (fun t => max 0 (priceD prices t))).sum) ≤ r.cash_after) := by
  rcases rebalance_parts h with ⟨v, sells, buys, _, htr, hbefore, _, hsells,
    hbuys, hafter, hbound⟩
  rcases side_notional_split (fun tr htr => (hsells tr htr).1)
    (fun tr htr => (hbuys tr htr).1) with ⟨hS, hB⟩
  rw [htr, hS, hB, hbefore]
  refine ⟨hbound, ?_⟩
  intro h0
  have hsell_nonneg : 0 ≤ (sells.map Trade.notional).sum := by
    refine List.sum_nonneg ?_
    intro x hx
    rcases List.mem_map.mp hx with ⟨tr, htrm, rfl⟩
    rcases hsells tr htrm with ⟨_, hq, hp, _, _⟩
    exact le_of_lt (mul_pos hq hp)
  have hmax : max 0 (pf.cash + (sells.map Trade.notional).sum) =
      pf.cash + (sells.map Trade.notional).sum :=
    max_eq_right (by linarith)
  rw [hmax] at hbound
  rw [hafter]
  linarith

/-- C2 amended witness: the counterexample run itself satisfies the
epsilon-bounded statement. -/
theorem C2_no_overdraft_amended_witness :
    rebalance ex_pf2 ex_tg2 ex_pr2 "BUY" false 0 =
      .ok ⟨[Trade.mk "BBB" Side.BUY 2 ex_q2], 1, 1 - 2 * ex_q2⟩ ∧
    (side_notional Side.BUY
        (RebalanceResult.mk [Trade.mk "BBB" Side.BUY 2 ex_q2] 1
          (1 - 2 * ex_q2)).trades ≤
      max 0 ((RebalanceResult.mk [Trade.mk "BBB" Side.BUY 2 ex_q2] 1
          (1 - 2 * ex_q2)).cash_before +
        side_notional Side.SELL
          (RebalanceResult.mk [Trade.mk "BBB" Side.BUY 2 ex_q2] 1
            (1 - 2 * ex_q2)).trades) +
      eps * ((universe0 ex_pf2 ex_tg2).map
        (fun t => max 0 (priceD ex_pr2 t))).sum) :=
  ⟨by with_unfolding_all rfl,
   (@C2_no_overdraft_amended ex_pf2 ex_tg2 ex_pr2 "BUY" false 0
     (RebalanceResult.mk [Trade.mk "BBB" Side.BUY 2 ex_q2] 1
       (1 - 2 * ex_q2))
     (by with_unfolding_all rfl)).1⟩

/-- C7: the trade list a successful `rebalance` returns is all the SELL
trades followed by all the BUY trades, and the SELL trades appear in
ascending order of their pre-sell delta (most negative — most
overweight — first). -/
theorem C7_trade_order {pf : Portfolio} {tg : TargetAllocation}
    {prices : List (String × ℚ)} {mode : String} {af : Bool} {mtn : ℚ}
    {v : Valuation} {r : RebalanceResult}
    (hv : valuation pf tg prices = .ok v)
    (h : rebalance pf tg prices mode af mtn = .ok r) :
    ∃ sells buys, r.trades = sells ++ buys ∧
      (∀ tr ∈ sells, tr.side = Side.SELL) ∧
      (∀ tr ∈ buys, tr.side = Side.BUY) ∧
      sells.Pairwise (fun a b => (dlookup v.deltas a.ticker).getD 0 ≤
        (dlookup v.deltas b.ticker).getD 0) := by
  rcases rebalance_parts h with ⟨v', sells, buys, hv', htr, _, ⟨sub, hf2, hsub⟩,
    hsells, hbuys, _, _⟩
  have hveq : v' = v := by
    rw [hv] at hv'
    cases hv'
    rfl
  rw [hveq] at hsub
  refine ⟨sells, buys, htr, fun tr htrm => (hsells tr htrm).1,
    fun tr htrm => (hbuys tr htrm).1, ?_⟩
  rcases valuation_ok_elim hv with ⟨_, _, hdk, _, _, hnd⟩
  have hlookup : ∀ it ∈ sub, dlookup v.deltas it.1 = some it.2 := by
    intro it hit
    have h1 : it ∈ sort_by (fun a b => decide (a.2 < b.2))
        (v.deltas.filter (fun p => decide (p.2 < 0))) := hsub.mem hit
    have h2 : it ∈ v.deltas.filter (fun p => decide (p.2 < 0)) :=
      (sort_by_perm _ _).mem_iff.mp h1
    have h3 : it ∈ v.deltas := List.mem_of_mem_filter h2
    refine dlookup_of_mem_nodup ?_ ?_
    · exact (Prod.mk.eta (p := it)) ▸ h3
    · rw [hdk]
      exact hnd
  have hsorted : sub.Pairwise (fun a b => a.2 ≤ b.2) :=
    (sort_by_sorted _).sublist hsub
  have hsorted' : sub.Pairwise (fun a b =>
      (dlookup v.deltas a.1).getD 0 ≤ (dlookup v.deltas b.1).getD 0) := by
    refine List.Pairwise.imp_of_mem ?_ hsorted
    intro a b ha hb hle
    rw [hlookup a ha, hlookup b hb]
    simpa using hle
  exact forall₂_pairwise hf2 hsorted'
    (fun a b x y hax hby hxy => by rw [hax, hby]; exact hxy)

/-- C7 witness: a TRADE run that sells `AAA` and buys `BBB` — the list
is the SELL followed by the BUY, trivially sorted. -/
theorem C7_trade_order_witness :
    valuation ex_pf7 ex_tg7 ex_pr7 = .ok ex_v7 ∧
    rebalance ex_pf7 ex_tg7 ex_pr7 "TRADE" false 0 = .ok ex_r7 ∧
    (∃ sells buys, ex_r7.trades = sells ++ buys ∧
      (∀ tr ∈ sells, tr.side = Side.SELL) ∧
      (∀ tr ∈ buys, tr.side = Side.BUY) ∧
      sells.Pairwise (fun a b => (dlookup ex_v7.deltas a.ticker).getD 0 ≤
        (dlookup ex_v7.deltas b.ticker).getD 0)) :=
  ⟨by with_unfolding_all rfl,
   by with_unfolding_all rfl,
   @C7_trade_order ex_pf7 ex_tg7 ex_pr7 "TRADE" false 0 ex_v7 ex_r7
     (by with_unfolding_all rfl) (by with_unfolding_all rfl)⟩

/-! ### Lemmas: execution / settlement -/

theorem mem_dinsert_elim {α : Type} {m : List (String × α)} {k : String}
    {v : α} {q : String × α} (h : q ∈ dinsert m k v) :
    q = (k, v) ∨ q ∈ m := by
  induction m with
  | nil => simpa [dinsert] using h
  | cons p rest ih =>
    by_cases hp : p.1 = k
    · have hd : dinsert (p :: rest) k v = (p.1, v) :: rest := by
        simp [dinsert, hp]
      rw [hd] at h
      rcases List.mem_cons.mp h with h | h
      · exact Or.inl (by rw [h, hp])
      · exact Or.inr (List.mem_cons_of_mem _ h)
    · have hd : dinsert (p :: rest) k v = p :: dinsert rest k v := by
        simp [dinsert, hp]
      rw [hd] at h
      rcases List.mem_cons.mp h with h | h
      · exact Or.inr (h ▸ List.mem_cons_self _ _)
      · rcases ih h with h1 | h1
        · exact Or.inl h1
        · exact Or.inr (List.mem_cons_of_mem _ h1)

theorem mem_derase_elim {α : Type} {m : List (String × α)} {k : String}
    {q : String × α} (h : q ∈ derase m k) : q ∈ m := by
  induction m with
  | nil => simpa [derase] using h
  | cons p rest ih =>
    by_cases hp : p.1 = k
    · simp only [derase, hp, if_pos rfl] at h
      exact List.mem_cons_of_mem _ h
    · simp only [derase, hp, if_false, List.mem_cons] at h
      rcases h with h | h
      · exact h ▸ List.mem_cons_self _ _
      · exact List.mem_cons_of_mem _ (ih h)

theorem mem_pos_by_ticker {pf : Portfolio} {q : String × Position}
    (h : q ∈ pos_by_ticker pf) : q.2 ∈ pf.positions := by
  suffices hgen : ∀ (l : List Position) (m0 : List (String × Position)),
      q ∈ l.foldl (fun m p => dinsert m p.ticker p) m0 →
      q.2 ∈ l ∨ q ∈ m0 by
    rcases hgen pf.positions [] h with h1 | h1
    · exact h1
    · simp at h1
  intro l
  induction l with
  | nil =>
    intro m0 hm
    exact Or.inr hm
  | cons p rest ih =>
    intro m0 hm
    simp only [List.foldl_cons] at hm
    rcases ih _ hm with h1 | h1
    · exact Or.inl (List.mem_cons_of_mem _ h1)
    · rcases mem_dinsert_elim h1 with h2 | h2
      · exact Or.inl (by rw [h2]; exact List.mem_cons_self _ _)
      · exact Or.inr h2

/-- One settlement step keeps every indexed position's quantity
strictly positive, provided the trade's quantity is positive. -/
theorem apply_one_pos {aty : List (String × String)} {dat : Option String}
    {st st' : List (String × Position) × ℚ} {tr : Trade}
    (h : apply_one aty dat st tr = .ok st')
    (hq : 0 < tr.quantity)
    (hinv : ∀ q ∈ st.1, 0 < (q.2).quantity) :
    ∀ q ∈ st'.1, 0 < (q.2).quantity := by
  have hepspos : (0:ℚ) < eps := by norm_num [eps]
  simp only [apply_one] at h
  cases hside : tr.side
  · -- BUY
    rw [hside] at h
    dsimp only at h
    by_cases h1 : st.2 + eps < tr.notional
    · rw [if_pos h1] at h
      cases h
    · rw [if_neg h1] at h
      rcases hlk : dlookup st.1 tr.ticker with _ | p
      · rw [hlk] at h
        rcases hat : dlookup aty tr.ticker with _ | a
        · rw [hat] at h
          rcases dat with _ | d
          · cases h
          · dsimp only at h
            cases h
            intro q hqm
            rcases mem_dinsert_elim hqm with h2 | h2
            · rw [h2]
              exact hq
            · exact hinv q h2
        · rw [hat] at h
          dsimp only at h
          cases h
          intro q hqm
          rcases mem_dinsert_elim hqm with h2 | h2
          · rw [h2]
            exact hq
          · exact hinv q h2
      · rw [hlk] at h
        dsimp only at h
        cases h
        intro q hqm
        rcases mem_dinsert_elim hqm with h2 | h2
        · rw [h2]
          have := hinv _ (mem_of_dlookup_eq_some hlk)
          dsimp only
          linarith
        · exact hinv q h2
  · -- SELL
    rw [hside] at h
    dsimp only at h
    rcases hlk : dlookup st.1 tr.ticker with _ | p
    · rw [hlk] at h
      cases h
    · rw [hlk] at h
      dsimp only at h
      by_cases h1 : p.quantity + eps < tr.quantity
      · rw [if_pos h1] at h
        cases h
      · rw [if_neg h1] at h
        by_cases h2 : p.quantity - tr.quantity ≤ eps
        · rw [if_pos h2] at h
          cases h
          intro q hqm
          exact hinv q (mem_derase_elim hqm)
        · rw [if_neg h2] at h
          cases h
          intro q hqm
          rcases mem_dinsert_elim hqm with h3 | h3
          · rw [h3]
            dsimp only
            push_neg at h2
            linarith
          · exact hinv q h3

theorem apply_fold_pos {aty : List (String × String)} {dat : Option String} :
    ∀ (trades : List Trade) (st st' : List (String × Position) × ℚ),
      efold (apply_one aty dat) st trades = .ok st' →
      (∀ tr ∈ trades, 0 < tr.quantity) →
      (∀ q ∈ st.1, 0 < (q.2).quantity) →
      ∀ q ∈ st'.1, 0 < (q.2).quantity := by
  intro trades
  induction trades with
  | nil =>
    intro st st' h _ hinv
    simp only [efold] at h
    cases h
    exact hinv
  | cons tr rest ih =>
    intro st st' h htr hinv
    simp only [efold] at h
    rcases hstep : apply_one aty dat st tr with e | st1
    · rw [hstep] at h
      cases h
    · rw [hstep] at h
      dsimp only at h
      exact ih st1 st' h (fun t ht => htr t (List.mem_cons_of_mem _ ht))
        (apply_one_pos hstep (htr tr (List.mem_cons_self _ _)) hinv)

/-- C9 counterexample: the claim is false as stated — with non-negative
(not strictly positive) input quantities, a zero-quantity input row
passes through settlement untouched, so the returned Portfolio contains
a position whose quantity is not strictly positive (the empty trade
list satisfies the claim's positive-trade-quantity hypothesis
vacuously). -/
theorem C9_positive_positions_counterexample :
    (∀ p ∈ ex_pf9.positions, 0 ≤ p.quantity) ∧
    apply_trades ex_pf9 [] none (some "STOCK") = .ok ex_pf9 ∧
    Position.mk "AAA" "STOCK" 0 1 ∈ ex_pf9.positions ∧
    ¬ 0 < (Position.mk "AAA" "STOCK" 0 1).quantity := by
  refine ⟨by with_unfolding_all decide, by with_unfolding_all rfl,
    by with_unfolding_all decide, by norm_num⟩

/-- C9 amended: every Portfolio returned by a successful `apply_trades`
contains only positions with strictly positive quantity, provided the
input positions have *strictly positive* quantities and every trade's
quantity is positive: a SELL that leaves a quantity ≤ 1e-12 removes the
position entirely rather than keeping a zero or negative row, and no
operation produces a non-positive quantity. -/
theorem C9_positive_positions_amended {pf : Portfolio} {trades : List Trade}
    {aty : Option (List (String × String))} {dat : Option String}
    {pf' : Portfolio}
    (hpos : ∀ p ∈ pf.positions, 0 < p.quantity)
    (htr : ∀ tr ∈ trades, 0 < tr.quantity)
    (h : apply_trades pf trades aty dat = .ok pf') :
    ∀ p ∈ pf'.positions, 0 < p.quantity := by
  simp only [apply_trades] at h
  rcases hfold : efold (apply_one (aty.getD []) dat)
      (pos_by_ticker pf, pf.cash) trades with e | st
  · rw [hfold] at h
    cases h
  · rw [hfold] at h
    dsimp only at h
    obtain ⟨pos, cash⟩ := st
    cases h
    intro p hp
    dsimp only at hp
    have h1 : p ∈ pos.map Prod.snd :=
      (sort_by_perm _ _).mem_iff.mp hp
    rcases List.mem_map.mp h1 with ⟨q, hq, rfl⟩
    refine apply_fold_pos trades _ (pos, cash) hfold htr ?_ q hq
    intro q0 hq0
    exact hpos _ (mem_pos_by_ticker hq0)

/-- C9 amended witness: selling the entire position removes it, so the
returned portfolio has no non-positive rows. -/
theorem C9_positive_positions_amended_witness :
    (∀ p ∈ ex_pf1.positions, 0 < p.quantity) ∧
    (∀ tr ∈ [Trade.mk "AAA" Side.SELL 10 10], 0 < tr.quantity) ∧
    apply_trades ex_pf1 [Trade.mk "AAA" Side.SELL 10 10] none
      (some "STOCK") = .ok (Portfolio.mk [] 200) ∧
    (∀ p ∈ (Portfolio.mk [] 200).positions, 0 < p.quantity) :=
  ⟨by with_unfolding_all decide,
   by with_unfolding_all decide,
   by with_unfolding_all rfl,
   @C9_positive_positions_amended ex_pf1 [Trade.mk "AAA" Side.SELL 10 10]
     none (some "STOCK") (Portfolio.mk [] 200)
     (by with_unfolding_all decide)
     (by with_unfolding_all decide)
     (by with_unfolding_all rfl)⟩

theorem apply_one_missing {aty : List (String × String)}
    {dat : Option String} {st : List (String × Position) × ℚ} {tr : Trade}
    {u : String}
    (h : apply_one aty dat st tr = .error (.missing_asset_type u)) :
    dat = none ∧ dlookup aty u = none := by
  simp only [apply_one] at h
  cases hside : tr.side
  · -- BUY
    rw [hside] at h
    dsimp only at h
    by_cases h1 : st.2 + eps < tr.notional
    · rw [if_pos h1] at h
      cases h
    · rw [if_neg h1] at h
      rcases hlk : dlookup st.1 tr.ticker with _ | p
      · rw [hlk] at h
        rcases hat : dlookup aty tr.ticker with _ | a
        · rw [hat] at h
          rcases dat with _ | d
          · dsimp only at h
            cases h
            exact ⟨rfl, hat⟩
          · cases h
        · rw [hat] at h
          cases h
      · rw [hlk] at h
        cases h
  · -- SELL
    rw [hside] at h
    dsimp only at h
    rcases hlk : dlookup st.1 tr.ticker with _ | p
    · rw [hlk] at h
      cases h
    · rw [hlk] at h
      dsimp only at h
      by_cases h1 : p.quantity + eps < tr.quantity
      · rw [if_pos h1] at h
        cases h
      · rw [if_neg h1] at h
        by_cases h2 : p.quantity - tr.quantity ≤ eps
        · rw [if_pos h2] at h
          cases h
        · rw [if_neg h2] at h
          cases h

theorem efold_error {σ α ε : Type} {f : σ → α → Except ε σ} :
    ∀ {l : List α} {s : σ} {e : ε},
      efold f s l = .error e → ∃ s1 x, x ∈ l ∧ f s1 x = .error e := by
  intro l
  induction l with
  | nil =>
    intro s e h
    simp only [efold] at h
    cases h
  | cons x rest ih =>
    intro s e h
    simp only [efold] at h
    rcases hstep : f s x with e1 | s1
    · rw [hstep] at h
      cases h
      exact ⟨s, x, List.mem_cons_self _ _, hstep⟩
    · rw [hstep] at h
      rcases ih h with ⟨s2, y, hy, hf⟩
      exact ⟨s2, y, List.mem_cons_of_mem _ hy, hf⟩

/-- C10: `apply_trades` defaults `default_asset_type` to `"STOCK"`: the
default-call wrapper equals passing `some "STOCK"`; a BUY that opens a
ticker absent from `asset_type_by_ticker` under that default is
silently classified `"STOCK"` rather than failing; and a
MissingAssetType error can only arise when the caller passed
`default_asset_type = none` and the ticker is absent from the map. -/
theorem C10_default_asset_type :
    (∀ (pf : Portfolio) (trades : List Trade)
        (aty : Option (List (String × String))),
      apply_trades_default pf trades aty =
        apply_trades pf trades aty (some "STOCK")) ∧
    (∀ (pf : Portfolio) (trades : List Trade)
        (aty : Option (List (String × String)))
        (dat : Option String) (u : String),
      apply_trades pf trades aty dat = .error (.missing_asset_type u) →
        dat = none ∧ dlookup (aty.getD []) u = none) ∧
    (∀ (aty : List (String × String)) (pos : List (String × Position))
        (cash : ℚ) (tr : Trade) (st' : List (String × Position) × ℚ),
      tr.side = Side.BUY → dlookup pos tr.ticker = none →
      dlookup aty tr.ticker = none →
      apply_one aty (some "STOCK") (pos, cash) tr = .ok st' →
        dlookup st'.1 tr.ticker =
          some (Position.mk tr.ticker "STOCK" tr.quantity tr.price)) := by
  refine ⟨fun pf trades aty => rfl, ?_, ?_⟩
  · intro pf trades aty dat u h
    simp only [apply_trades] at h
    rcases hfold : efold (apply_one (aty.getD []) dat)
        (pos_by_ticker pf, pf.cash) trades with e | st
    · rw [hfold] at h
      cases h
      rcases efold_error hfold with ⟨s1, x, _, hstep⟩
      exact apply_one_missing hstep
    · rw [hfold] at h
      dsimp only at h
      obtain ⟨pos, cash⟩ := st
      cases h
  · intro aty pos cash tr st' hside hlk hat h
    simp only [apply_one] at h
    rw [hside] at h
    dsimp only at h
    by_cases h1 : cash + eps < tr.notional
    · rw [if_pos h1] at h
      cases h
    · rw [if_neg h1] at h
      rw [hlk, hat] at h
      dsimp only at h
      cases h
      exact dlookup_dinsert_self _ _ _

/-- C10 witness: a BUY of an unknown ticker with
`default_asset_type=None` fails with MissingAssetType, and the
theorem's characterisation applies at that concrete input. -/
theorem C10_default_asset_type_witness :
    apply_trades ex_pf10 [ex_buy10] none none =
      .error (.missing_asset_type "ZZZ") ∧
    ((none : Option String) = none ∧
      dlookup ((none : Option (List (String × String))).getD []) "ZZZ" =
        none) :=
  ⟨by with_unfolding_all rfl,
   C10_default_asset_type.2.1 ex_pf10 [ex_buy10] none none "ZZZ"
     (by with_unfolding_all rfl)⟩

/-! ### Lemmas: lazy price validation (C8) -/

theorem qty_by_ticker_nodup (pf : Portfolio) :
    ((qty_by_ticker pf).map Prod.fst).Nodup := by
  suffices h : ∀ (l : List Position) (m0 : List (String × ℚ)),
      (m0.map Prod.fst).Nodup →
      ((l.foldl (fun m p => dinsert m p.ticker p.quantity) m0).map
        Prod.fst).Nodup by
    exact h pf.positions [] (by simp)
  intro l
  induction l with
  | nil =>
    intro m0 h
    exact h
  | cons p rest ih =>
    intro m0 h
    exact ih _ (nodup_keys_dinsert _ _ h)

theorem current_values_err {prices : List (String × ℚ)} :
    ∀ {qbt : List (String × ℚ)},
      (qbt.map Prod.fst).Nodup →
      (∃ t q, dlookup qbt t = some q ∧ 0 < q ∧
        (dlookup prices t = none ∨
          ∃ px, dlookup prices t = some px ∧ px ≤ 0)) →
      ∃ u q', dlookup qbt u = some q' ∧ 0 < q' ∧
        ((current_values prices qbt = .error (.missing_price u) ∧
            dlookup prices u = none) ∨
          (∃ px, current_values prices qbt = .error (.invalid_price u) ∧
            dlookup prices u = some px ∧ px ≤ 0)) := by
  intro qbt
  induction qbt with
  | nil =>
    rintro _ ⟨t, q, hlk, _, _⟩
    simp [dlookup] at hlk
  | cons p rest ih =>
    rintro hnd ⟨t, q, hlk, hq, hbad⟩
    obtain ⟨t0, q0⟩ := p
    simp only [List.map_cons, List.nodup_cons] at hnd
    by_cases hq0 : q0 ≤ 0
    · -- head row skipped: the witness ticker is in the tail
      have hne : t0 ≠ t := by
        intro he
        subst he
        simp only [dlookup, if_pos rfl] at hlk
        cases hlk
        exact absurd hq (not_lt.mpr hq0)
      have hlk' : dlookup rest t = some q := by
        simpa [dlookup, hne] using hlk
      rcases ih hnd.2 ⟨t, q, hlk', hq, hbad⟩ with ⟨u, q', hu, hq', hcase⟩
      have hneu : t0 ≠ u := by
        intro he
        exact hnd.1 (he ▸ List.mem_map.mpr
          ⟨(u, q'), mem_of_dlookup_eq_some hu, rfl⟩)
      refine ⟨u, q', by simpa [dlookup, hneu] using hu, hq', ?_⟩
      have hred : current_values prices ((t0, q0) :: rest) =
          current_values prices rest := by
        simp [current_values, hq0]
      rw [hred]
      exact hcase
    · -- head row is priced
      rcases hnp : dlookup prices t0 with _ | px0
      · refine ⟨t0, q0, by simp [dlookup], not_le.mp hq0,
          Or.inl ⟨?_, hnp⟩⟩
        simp [current_values, hq0, need_price, hnp]
      · by_cases hpx0 : px0 ≤ 0
        · refine ⟨t0, q0, by simp [dlookup], not_le.mp hq0,
            Or.inr ⟨px0, ?_, hnp, hpx0⟩⟩
          simp [current_values, hq0, need_price, hnp, hpx0]
        · -- head priced fine; the bad ticker is in the tail
          have hne : t0 ≠ t := by
            intro he
            subst he
            rcases hbad with hb | ⟨px, hb, hble⟩
            · rw [hnp] at hb
              cases hb
            · rw [hnp] at hb
              cases hb
              exact absurd hble hpx0
          have hlk' : dlookup rest t = some q := by
            simpa [dlookup, hne] using hlk
          rcases ih hnd.2 ⟨t, q, hlk', hq, hbad⟩ with ⟨u, q', hu, hq', hcase⟩
          have hneu : t0 ≠ u := by
            intro he
            exact hnd.1 (he ▸ List.mem_map.mpr
              ⟨(u, q'), mem_of_dlookup_eq_some hu, rfl⟩)
          refine ⟨u, q', by simpa [dlookup, hneu] using hu, hq', ?_⟩
          rcases hcase with ⟨herr, hmiss⟩ | ⟨px, herr, hsome, hle⟩
          · refine Or.inl ⟨?_, hmiss⟩
            simp [current_values, hq0, need_price, hnp, hpx0, herr]
          · refine Or.inr ⟨px, ?_, hsome, hle⟩
            simp [current_values, hq0, need_price, hnp, hpx0, herr]

theorem current_values_ok_of_good {prices : List (String × ℚ)} :
    ∀ {qbt : List (String × ℚ)},
      (∀ p ∈ qbt, 0 < p.2 →
        ∃ px, dlookup prices p.1 = some px ∧ 0 < px) →
      ∃ cv, current_values prices qbt = .ok cv := by
  intro qbt
  induction qbt with
  | nil =>
    intro _
    exact ⟨[], rfl⟩
  | cons p rest ih =>
    intro hgood
    obtain ⟨t0, q0⟩ := p
    rcases ih (fun q hq hpos =>
      hgood q (List.mem_cons_of_mem _ hq) hpos) with ⟨cv, hcv⟩
    by_cases hq0 : q0 ≤ 0
    · exact ⟨cv, by simpa [current_values, hq0] using hcv⟩
    · rcases hgood (t0, q0) (List.mem_cons_self _ _) (not_le.mp hq0)
        with ⟨px, hpx, hpos⟩
      refine ⟨(t0, q0 * px) :: cv, ?_⟩
      simp [current_values, hq0, need_price, hpx, not_le.mpr hpos, hcv]

/-! ### Price-locality congruence: the run only reads prices of tickers
it actually prices -/

theorem need_price_congr {S : List String} {prices2 prices : List (String × ℚ)}
    (hag : ∀ t ∈ S, dlookup prices2 t = dlookup prices t) {t : String}
    (hmem : t ∈ S) : need_price prices2 t = need_price prices t := by
  unfold need_price
  rw [hag t hmem]

theorem priceD_congr {S : List String} {prices2 prices : List (String × ℚ)}
    (hag : ∀ t ∈ S, dlookup prices2 t = dlookup prices t) {t : String}
    (hmem : t ∈ S) : priceD prices2 t = priceD prices t := by
  unfold priceD
  rw [hag t hmem]

theorem current_values_congr {S : List String}
    {prices2 prices : List (String × ℚ)}
    (hag : ∀ t ∈ S, dlookup prices2 t = dlookup prices t) :
    ∀ {qbt : List (String × ℚ)},
      (∀ p ∈ qbt, ¬ p.2 ≤ 0 → p.1 ∈ S) →
      current_values prices2 qbt = current_values prices qbt := by
  intro qbt
  induction qbt with
  | nil =>
    intro _
    rfl
  | cons p rest ih =>
    intro hmem
    obtain ⟨t0, q0⟩ := p
    by_cases hq0 : q0 ≤ 0
    · simp only [current_values, if_pos hq0]
      exact ih (fun q hq => hmem q (List.mem_cons_of_mem _ hq))
    · simp only [current_values, if_neg hq0]
      rw [need_price_congr hag (hmem (t0, q0) (List.mem_cons_self _ _) hq0),
        ih (fun q hq => hmem q (List.mem_cons_of_mem _ hq))]

theorem mem_universe0_of_qbt {pf : Portfolio} {tg : TargetAllocation}
    {p : String × ℚ} (hp : p ∈ qty_by_ticker pf) (hpos : ¬ p.2 ≤ 0) :
    p.1 ∈ universe0 pf tg := by
  unfold universe0
  refine List.mem_dedup.mpr (List.mem_append.mpr (Or.inl ?_))
  refine List.mem_map.mpr ⟨p, List.mem_filter.mpr ⟨hp, ?_⟩, rfl⟩
  simpa using not_le.mp hpos

theorem valuation_congr {pf : Portfolio} {tg : TargetAllocation}
    {prices2 prices : List (String × ℚ)}
    (hag : ∀ t ∈ universe0 pf tg, dlookup prices2 t = dlookup prices t) :
    valuation pf tg prices2 = valuation pf tg prices := by
  unfold valuation
  rw [current_values_congr hag
    (fun p hp hpos => mem_universe0_of_qbt hp hpos)]

theorem sell_step_congr {S : List String}
    {prices2 prices : List (String × ℚ)}
    (hag : ∀ t ∈ S, dlookup prices2 t = dlookup prices t)
    {af : Bool} {mtn : ℚ} {tv : List (String × ℚ)} {st : SellState}
    {item : String × ℚ} (hmem : item.1 ∈ S) :
    sell_step prices2 af mtn tv st item =
      sell_step prices af mtn tv st item := by
  simp only [sell_step]
  rw [need_price_congr hag hmem]

theorem sell_leg_congr {S : List String}
    {prices2 prices : List (String × ℚ)}
    (hag : ∀ t ∈ S, dlookup prices2 t = dlookup prices t)
    {af : Bool} {mtn : ℚ} {tv : List (String × ℚ)} :
    ∀ (items : List (String × ℚ)) (st : SellState),
      (∀ it ∈ items, it.1 ∈ S) →
      sell_leg prices2 af mtn tv items st =
        sell_leg prices af mtn tv items st := by
  intro items
  induction items with
  | nil =>
    intro st _
    rfl
  | cons item rest ih =>
    intro st hmem
    simp only [sell_leg, efold]
    rw [sell_step_congr hag (hmem item (List.mem_cons_self _ _))]
    rcases hstep : sell_step prices af mtn tv st item with e | st1
    · rfl
    · exact ih st1 (fun it hit => hmem it (List.mem_cons_of_mem _ hit))

theorem add_buy_congr {S : List String}
    {prices2 prices : List (String × ℚ)}
    (hag : ∀ t ∈ S, dlookup prices2 t = dlookup prices t)
    {mtn : ℚ} {acc : BuyAcc} {t : String} {qty : ℚ} (hmem : t ∈ S) :
    add_buy prices2 mtn acc t qty = add_buy prices mtn acc t qty := by
  simp only [add_buy]
  rw [need_price_congr hag hmem]

theorem level2_ticker_congr {S : List String}
    {prices2 prices : List (String × ℚ)}
    (hag : ∀ t ∈ S, dlookup prices2 t = dlookup prices t)
    {mtn : ℚ} {af : Bool} {deltas : List (String × ℚ)} {bt nt : ℚ}
    {s : BuyAcc × ℚ} {t : String} (hmem : t ∈ S) :
    level2_ticker prices2 mtn af deltas bt nt s t =
      level2_ticker prices mtn af deltas bt nt s t := by
  simp only [level2_ticker]
  rw [need_price_congr hag hmem]
  rcases hnp : need_price prices t with e | px
  · rfl
  · dsimp only
    rw [add_buy_congr hag hmem]

theorem level2_inner_congr {S : List String}
    {prices2 prices : List (String × ℚ)}
    (hag : ∀ t ∈ S, dlookup prices2 t = dlookup prices t)
    {mtn : ℚ} {af : Bool} {deltas : List (String × ℚ)} {bt nt : ℚ} :
    ∀ (ts : List String) (s : BuyAcc × ℚ),
      (∀ t ∈ ts, t ∈ S) →
      efold (level2_ticker prices2 mtn af deltas bt nt) s ts =
        efold (level2_ticker prices mtn af deltas bt nt) s ts := by
  intro ts
  induction ts with
  | nil =>
    intro s _
    rfl
  | cons t rest ih =>
    intro s hmem
    simp only [efold]
    rw [level2_ticker_congr hag (hmem t (List.mem_cons_self _ _))]
    rcases hstep : level2_ticker prices mtn af deltas bt nt s t with e | s1
    · rfl
    · exact ih s1 (fun u hu => hmem u (List.mem_cons_of_mem _ hu))

theorem level2_type_congr {S : List String}
    {prices2 prices : List (String × ℚ)}
    (hag : ∀ t ∈ S, dlookup prices2 t = dlookup prices t)
    {mtn : ℚ} {af : Bool} {deltas : List (String × ℚ)}
    {cash total_need : ℚ} {s : BuyAcc × ℚ} {grp : String × List String}
    (hmem : ∀ t ∈ grp.2, t ∈ S) :
    level2_type prices2 mtn af deltas cash total_need s grp =
      level2_type prices mtn af deltas cash total_need s grp := by
  simp only [level2_type]
  rw [level2_inner_congr hag grp.2 s hmem]

theorem level2_fold_congr {S : List String}
    {prices2 prices : List (String × ℚ)}
    (hag : ∀ t ∈ S, dlookup prices2 t = dlookup prices t)
    {mtn : ℚ} {af : Bool} {deltas : List (String × ℚ)}
    {cash total_need : ℚ} :
    ∀ (gs : List (String × List String)) (s : BuyAcc × ℚ),
      (∀ g ∈ gs, ∀ t ∈ g.2, t ∈ S) →
      efold (level2_type prices2 mtn af deltas cash total_need) s gs =
        efold (level2_type prices mtn af deltas cash total_need) s gs := by
  intro gs
  induction gs with
  | nil =>
    intro s _
    rfl
  | cons g rest ih =>
    intro s hmem
    simp only [efold]
    rw [level2_type_congr hag (hmem g (List.mem_cons_self _ _))]
    rcases hstep : level2_type prices mtn af deltas cash total_need s g
      with e | s1
    · rfl
    · exact ih s1 (fun g' hg' => hmem g' (List.mem_cons_of_mem _ hg'))

theorem select_step_congr {S : List String}
    {prices2 prices : List (String × ℚ)}
    (hag : ∀ t ∈ S, dlookup prices2 t = dlookup prices t)
    {tv cv bought : List (String × ℚ)} {c : ℚ}
    {best : Option String × ℚ} {t : String} (hmem : t ∈ S) :
    select_step prices2 tv cv bought c best t =
      select_step prices tv cv bought c best t := by
  simp only [select_step]
  rw [need_price_congr hag hmem]

theorem select_fold_congr {S : List String}
    {prices2 prices : List (String × ℚ)}
    (hag : ∀ t ∈ S, dlookup prices2 t = dlookup prices t)
    {tv cv bought : List (String × ℚ)} {c : ℚ} :
    ∀ (ts : List String) (best : Option String × ℚ),
      (∀ t ∈ ts, t ∈ S) →
      efold (select_step prices2 tv cv bought c) best ts =
        efold (select_step prices tv cv bought c) best ts := by
  intro ts
  induction ts with
  | nil =>
    intro best _
    rfl
  | cons t rest ih =>
    intro best hmem
    simp only [efold]
    rw [select_step_congr hag (hmem t (List.mem_cons_self _ _))]
    rcases hstep : select_step prices tv cv bought c best t with e | b1
    · rfl
    · exact ih b1 (fun u hu => hmem u (List.mem_cons_of_mem _ hu))

theorem select_best_congr {S : List String}
    {prices2 prices : List (String × ℚ)}
    (hag : ∀ t ∈ S, dlookup prices2 t = dlookup prices t)
    {tv cv bought : List (String × ℚ)} {c : ℚ} {bts : List String}
    (hmem : ∀ t ∈ bts, t ∈ S) :
    select_best prices2 tv cv bought c bts =
      select_best prices tv cv bought c bts := by
  simp only [select_best]
  rw [select_fold_congr hag bts (none, 0) hmem]

theorem min_price_of_congr {S : List String}
    {prices2 prices : List (String × ℚ)}
    (hag : ∀ t ∈ S, dlookup prices2 t = dlookup prices t) :
    ∀ {ts : List String}, (∀ t ∈ ts, t ∈ S) →
      min_price_of prices2 ts = min_price_of prices ts := by
  intro ts
  cases ts with
  | nil =>
    intro _
    rfl
  | cons t rest =>
    intro hmem
    simp only [min_price_of]
    rw [priceD_congr hag (hmem t (List.mem_cons_self _ _)),
      List.map_congr_left (fun u hu =>
        priceD_congr hag (hmem u (List.mem_cons_of_mem _ hu)))]

theorem keys_dinsert_elim {α : Type} {m : List (String × α)} {k u : String}
    {v : α} (h : u ∈ (dinsert m k v).map Prod.fst) :
    u ∈ m.map Prod.fst ∨ u = k := by
  rcases List.mem_map.mp h with ⟨q, hq, rfl⟩
  rcases mem_dinsert_elim hq with h1 | h1
  · exact Or.inr (by rw [h1])
  · exact Or.inl (List.mem_map.mpr ⟨q, h1, rfl⟩)

theorem add_buy_keys {prices : List (String × ℚ)} {mtn : ℚ} {acc : BuyAcc}
    {t : String} {qty : ℚ} {acc' : BuyAcc} {n : ℚ}
    (h : add_buy prices mtn acc t qty = .ok (acc', n)) :
    ∀ u ∈ acc'.qty_acc.map Prod.fst,
      u ∈ acc.qty_acc.map Prod.fst ∨ u = t := by
  rcases add_buy_cases h with ⟨rfl, _⟩ | ⟨px, _, _, _, _, _, hq, _⟩
  · exact fun u hu => Or.inl hu
  · intro u hu
    rw [hq] at hu
    exact keys_dinsert_elim hu

theorem level2_ticker_keys {prices : List (String × ℚ)} {mtn : ℚ}
    {af : Bool} {deltas : List (String × ℚ)} {bt nt : ℚ}
    {s s' : BuyAcc × ℚ} {t : String}
    (h : level2_ticker prices mtn af deltas bt nt s t = .ok s') :
    ∀ u ∈ s'.1.qty_acc.map Prod.fst,
      u ∈ s.1.qty_acc.map Prod.fst ∨ u = t := by
  simp only [level2_ticker] at h
  by_cases h1 : max 0 ((dlookup deltas t).getD 0) ≤ 0
  · rw [if_pos h1] at h
    cases h
    exact fun u hu => Or.inl hu
  · rw [if_neg h1] at h
    rcases hnp : need_price prices t with e | px
    · rw [hnp] at h
      cases h
    · rw [hnp] at h
      dsimp only at h
      set qty := (if af = true
        then min (bt * (max 0 ((dlookup deltas t).getD 0) / nt))
          (max 0 ((dlookup deltas t).getD 0)) / px
        else floor_shares (min (bt * (max 0 ((dlookup deltas t).getD 0) / nt))
          (max 0 ((dlookup deltas t).getD 0)) / px)) with hqty
      by_cases h2 : qty ≤ 0
      · rw [if_pos h2] at h
        cases h
        exact fun u hu => Or.inl hu
      · rw [if_neg h2] at h
        rcases hab : add_buy prices mtn s.1 t qty with e | pr
        · rw [hab] at h
          cases h
        · rw [hab] at h
          dsimp only at h
          obtain ⟨acc', nn⟩ := pr
          by_cases h3 : 0 < nn
          · rw [if_pos h3] at h
            cases h
            exact add_buy_keys hab
          · rw [if_neg h3] at h
            cases h
            exact add_buy_keys hab

theorem level2_inner_keys {prices : List (String × ℚ)} {mtn : ℚ}
    {af : Bool} {deltas : List (String × ℚ)} {bt nt : ℚ} :
    ∀ (ts : List String) (s s' : BuyAcc × ℚ),
      efold (level2_ticker prices mtn af deltas bt nt) s ts = .ok s' →
      ∀ u ∈ s'.1.qty_acc.map Prod.fst,
        u ∈ s.1.qty_acc.map Prod.fst ∨ u ∈ ts := by
  intro ts
  induction ts with
  | nil =>
    intro s s' h u hu
    simp only [efold] at h
    cases h
    exact Or.inl hu
  | cons t rest ih =>
    intro s s' h u hu
    simp only [efold] at h
    rcases hstep : level2_ticker prices mtn af deltas bt nt s t with e | s1
    · rw [hstep] at h
      cases h
    · rw [hstep] at h
      dsimp only at h
      rcases ih s1 s' h u hu with h1 | h1
      · rcases level2_ticker_keys hstep u h1 with h2 | h2
        · exact Or.inl h2
        · exact Or.inr (h2 ▸ List.mem_cons_self _ _)
      · exact Or.inr (List.mem_cons_of_mem _ h1)

theorem level2_type_keys {prices : List (String × ℚ)} {mtn : ℚ}
    {af : Bool} {deltas : List (String × ℚ)} {cash total_need : ℚ}
    {s s' : BuyAcc × ℚ} {grp : String × List String}
    (h : level2_type prices mtn af deltas cash total_need s grp = .ok s') :
    ∀ u ∈ s'.1.qty_acc.map Prod.fst,
      u ∈ s.1.qty_acc.map Prod.fst ∨ u ∈ grp.2 := by
  simp only [level2_type] at h
  by_cases h1 : cash * (need_of deltas grp.2 / total_need) ≤ 0
  · rw [if_pos h1] at h
    cases h
    exact fun u hu => Or.inl hu
  · rw [if_neg h1] at h
    by_cases h2 : need_of deltas grp.2 ≤ 0
    · rw [if_pos h2] at h
      cases h
      exact fun u hu => Or.inl hu
    · rw [if_neg h2] at h
      exact level2_inner_keys grp.2 s s' h

theorem level2_fold_keys {prices : List (String × ℚ)} {mtn : ℚ}
    {af : Bool} {deltas : List (String × ℚ)} {cash total_need : ℚ} :
    ∀ (gs : List (String × List String)) (s s' : BuyAcc × ℚ),
      efold (level2_type prices mtn af deltas cash total_need) s gs =
        .ok s' →
      ∀ u ∈ s'.1.qty_acc.map Prod.fst,
        u ∈ s.1.qty_acc.map Prod.fst ∨ ∃ g ∈ gs, u ∈ g.2 := by
  intro gs
  induction gs with
  | nil =>
    intro s s' h u hu
    simp only [efold] at h
    cases h
    exact Or.inl hu
  | cons g rest ih =>
    intro s s' h u hu
    simp only [efold] at h
    rcases hstep : level2_type prices mtn af deltas cash total_need s g
      with e | s1
    · rw [hstep] at h
      cases h
    · rw [hstep] at h
      dsimp only at h
      rcases ih s1 s' h u hu with h1 | ⟨g', hg', hu'⟩
      · rcases level2_type_keys hstep u h1 with h2 | h2
        · exact Or.inl h2
        · exact Or.inr ⟨g, List.mem_cons_self _ _, h2⟩
      · exact Or.inr ⟨g', List.mem_cons_of_mem _ hg', hu'⟩

theorem top_up_keys {prices : List (String × ℚ)} {mtn : ℚ}
    {tv cv : List (String × ℚ)} {bts : List String} :
    ∀ (fuel : Nat) (c : ℚ) (acc : BuyAcc) (res : ℚ × BuyAcc × Bool),
      top_up prices mtn tv cv bts fuel c acc = .ok res →
      ∀ u ∈ res.2.1.qty_acc.map Prod.fst,
        u ∈ acc.qty_acc.map Prod.fst ∨ u ∈ bts := by
  intro fuel
  induction fuel with
  | zero =>
    intro c acc res h u hu
    simp only [top_up] at h
    cases h
    exact Or.inl hu
  | succ n ih =>
    intro c acc res h u hu
    simp only [top_up] at h
    rcases hsel : select_best prices tv cv acc.bought_value c bts
      with e | ro
    · rw [hsel] at h
      cases h
    · rw [hsel] at h
      rcases ro with _ | t
      · dsimp only at h
        cases h
        exact Or.inl hu
      · dsimp only at h
        rcases select_best_some hsel with ⟨px, hnp, hle, hmem⟩
        rw [hnp] at h
        dsimp only at h
        rw [if_neg (not_lt.mpr hle)] at h
        rcases hab : add_buy prices mtn acc t 1 with e | pr
        · rw [hab] at h
          cases h
        · rw [hab] at h
          dsimp only at h
          obtain ⟨acc', nn⟩ := pr
          by_cases hn0 : nn ≤ 0
          · rw [if_pos hn0] at h
            cases h
            rcases add_buy_keys hab u hu with h1 | h1
            · exact Or.inl h1
            · exact Or.inr (h1 ▸ hmem)
          · rw [if_neg hn0] at h
            rcases ih _ _ _ h u hu with h1 | h1
            · rcases add_buy_keys hab u h1 with h2 | h2
              · exact Or.inl h2
              · exact Or.inr (h2 ▸ hmem)
            · exact Or.inr h1

theorem top_up_congr {S : List String}
    {prices2 prices : List (String × ℚ)}
    (hag : ∀ t ∈ S, dlookup prices2 t = dlookup prices t)
    {mtn : ℚ} {tv cv : List (String × ℚ)} {bts : List String}
    (hsub : ∀ t ∈ bts, t ∈ S) :
    ∀ (fuel : Nat) (c : ℚ) (acc : BuyAcc),
      top_up prices2 mtn tv cv bts fuel c acc =
        top_up prices mtn tv cv bts fuel c acc := by
  intro fuel
  induction fuel with
  | zero =>
    intro c acc
    rfl
  | succ n ih =>
    intro c acc
    simp only [top_up]
    rw [select_best_congr hag hsub]
    rcases hsel : select_best prices tv cv acc.bought_value c bts
      with e | ro
    · rfl
    · rcases ro with _ | t
      · rfl
      · dsimp only
        rcases select_best_some hsel with ⟨px, hnp, hle, hmem⟩
        rw [need_price_congr hag (hsub t hmem), hnp]
        dsimp only
        rw [if_neg (not_lt.mpr hle), if_neg (not_lt.mpr hle),
          add_buy_congr hag (hsub t hmem)]
        rcases hab : add_buy prices mtn acc t 1 with e | pr
        · rfl
        · obtain ⟨acc', nn⟩ := pr
          dsimp only
          by_cases hn0 : nn ≤ 0
          · rw [if_pos hn0, if_pos hn0]
          · rw [if_neg hn0, if_neg hn0, ih]

theorem emit_step_congr {S : List String}
    {prices2 prices : List (String × ℚ)}
    (hag : ∀ t ∈ S, dlookup prices2 t = dlookup prices t)
    {ts : List Trade} {p : String × ℚ} (hmem : p.1 ∈ S) :
    emit_step prices2 ts p = emit_step prices ts p := by
  simp only [emit_step]
  rw [need_price_congr hag hmem]

theorem emit_fold_congr {S : List String}
    {prices2 prices : List (String × ℚ)}
    (hag : ∀ t ∈ S, dlookup prices2 t = dlookup prices t) :
    ∀ (m : List (String × ℚ)) (ts : List Trade),
      (∀ p ∈ m, p.1 ∈ S) →
      efold (emit_step prices2) ts m = efold (emit_step prices) ts m := by
  intro m
  induction m with
  | nil =>
    intro ts _
    rfl
  | cons p rest ih =>
    intro ts hmem
    simp only [efold]
    rw [emit_step_congr hag (hmem p (List.mem_cons_self _ _))]
    rcases hstep : emit_step prices ts p with e | ts1
    · rfl
    · exact ih ts1 (fun q hq => hmem q (List.mem_cons_of_mem _ hq))

theorem buy_two_level_congr {S : List String}
    {prices2 prices : List (String × ℚ)}
    (hag : ∀ t ∈ S, dlookup prices2 t = dlookup prices t)
    {aty : List (String × String)} {af : Bool} {mtn cash : ℚ}
    {deltas tvs cvs : List (String × ℚ)}
    (hsub : ∀ t ∈ (deltas.filter (fun p => decide (0 < p.2))).map Prod.fst,
      t ∈ S) :
    buy_two_level prices2 aty af mtn cash deltas tvs cvs =
      buy_two_level prices aty af mtn cash deltas tvs cvs := by
  simp only [buy_two_level]
  set bts := (deltas.filter (fun p => decide (0 < p.2))).map Prod.fst with hbts
  by_cases h1 : cash ≤ 0 ∨ bts = []
  · rw [if_pos h1, if_pos h1]
  · rw [if_neg h1, if_neg h1]
    set gs := group_by_type aty bts with hgs
    have hgrp : ∀ g ∈ gs, ∀ t ∈ g.2, t ∈ S := by
      intro g hg t ht
      refine hsub t ?_
      refine (group_by_type_flat_perm aty bts).mem_iff.mp ?_
      exact List.mem_flatten.mpr ⟨g.2, List.mem_map.mpr ⟨g, hg, rfl⟩, ht⟩
    set tn := (gs.map (fun g => need_of deltas g.2)).sum with htn
    by_cases h2 : tn ≤ 0
    · rw [if_pos h2, if_pos h2]
    · rw [if_neg h2, if_neg h2]
      rw [level2_fold_congr hag gs (⟨[], []⟩, 0) hgrp]
      rcases hl2 : efold (level2_type prices mtn af deltas cash tn)
          (⟨[], []⟩, 0) gs with e | s2
      · rfl
      · obtain ⟨acc, spent⟩ := s2
        dsimp only
        have hacc_keys : ∀ u ∈ acc.qty_acc.map Prod.fst, u ∈ bts := by
          intro u hu
          rcases level2_fold_keys gs _ _ hl2 u hu with h3 | ⟨g, hg, hu'⟩
          · simp at h3
          · refine (group_by_type_flat_perm aty bts).mem_iff.mp ?_
            exact List.mem_flatten.mpr ⟨g.2, List.mem_map.mpr ⟨g, hg, rfl⟩, hu'⟩
        have hfuel : top_up_fuel prices2 bts (cash - spent) =
            top_up_fuel prices bts (cash - spent) := by
          unfold top_up_fuel
          rw [min_price_of_congr hag hsub]
        by_cases h3 : af = false ∧ 0 < cash - spent
        · rw [if_pos h3, if_pos h3, hfuel,
            top_up_congr hag hsub _ (cash - spent) acc]
          rcases htop : top_up prices mtn tvs cvs bts
              (top_up_fuel prices bts (cash - spent)) (cash - spent) acc
            with e | s3
          · rfl
          · obtain ⟨c2, acc2, flag⟩ := s3
            dsimp only
            have hacc2_keys : ∀ p ∈ acc2.qty_acc, p.1 ∈ S := by
              intro p hp
              have hu : p.1 ∈ acc2.qty_acc.map Prod.fst :=
                List.mem_map.mpr ⟨p, hp, rfl⟩
              rcases top_up_keys _ _ _ _ htop p.1 hu with h4 | h4
              · exact hsub _ (hacc_keys _ h4)
              · exact hsub _ h4
            simp only [emit_buys]
            rw [emit_fold_congr hag _ _ hacc2_keys]
        · rw [if_neg h3, if_neg h3]
          dsimp only
          have hacc_keys' : ∀ p ∈ acc.qty_acc, p.1 ∈ S := by
            intro p hp
            exact hsub _ (hacc_keys _ (List.mem_map.mpr ⟨p, hp, rfl⟩))
          simp only [emit_buys]
          rw [emit_fold_congr hag _ _ hacc_keys']

theorem rebalance_congr {pf : Portfolio} {tg : TargetAllocation}
    {prices2 prices : List (String × ℚ)}
    (hag : ∀ t ∈ universe0 pf tg, dlookup prices2 t = dlookup prices t)
    {mode : String} {af : Bool} {mtn : ℚ} :
    rebalance pf tg prices2 mode af mtn =
      rebalance pf tg prices mode af mtn := by
  simp only [rebalance]
  by_cases hmode : mode_norm mode ≠ "BUY" ∧ mode_norm mode ≠ "TRADE" ∧
      mode_norm mode ≠ "SELL"
  · rw [if_pos hmode, if_pos hmode]
  · rw [if_neg hmode, if_neg hmode, valuation_congr hag]
    rcases hv : valuation pf tg prices with e | v
    · rfl
    · dsimp only
      rcases valuation_ok_elim hv with ⟨hcv, huniv, hdk, hdel, htv, hnd⟩
      have hitems : ∀ it ∈ sort_by (fun a b => decide (a.2 < b.2))
          (v.deltas.filter (fun p => decide (p.2 < 0))),
          it.1 ∈ universe0 pf tg := by
        intro it hit
        have h1 : it ∈ v.deltas.filter (fun p => decide (p.2 < 0)) :=
          (sort_by_perm _ _).mem_iff.mp hit
        have h2 : it.1 ∈ v.deltas.map Prod.fst :=
          List.mem_map.mpr ⟨it, List.mem_of_mem_filter h1, rfl⟩
        rw [hdk, huniv] at h2
        exact h2
      by_cases hm : mode_norm mode = "SELL" ∨ mode_norm mode = "TRADE"
      · rw [if_pos hm, if_pos hm, sell_leg_congr hag _ _ hitems]
        rcases hsl : sell_leg prices af mtn v.target_values
            (sort_by (fun a b => decide (a.2 < b.2))
              (v.deltas.filter (fun p => decide (p.2 < 0))))
            { cash := pf.cash, current_values := v.current_values,
              qtys := qty_by_ticker pf, deltas := v.deltas,
              trades := [] } with e | st
        · rfl
        · dsimp only
          rcases sell_leg_spec prices af mtn v.target_values _ _ _ hsl
              (fun it hit => by
                have h1 : it ∈ v.deltas.filter (fun p => decide (p.2 < 0)) :=
                  (sort_by_perm _ _).mem_iff.mp hit
                exact List.mem_map.mpr
                  ⟨it, List.mem_of_mem_filter h1, rfl⟩)
            with ⟨tl, sub, _, _, _, _, _, _, hdk2⟩
          have hsub : ∀ t ∈ (st.deltas.filter
              (fun p => decide (0 < p.2))).map Prod.fst,
              t ∈ universe0 pf tg := by
            intro t ht
            have h1 : t ∈ st.deltas.map Prod.fst := by
              rcases List.mem_map.mp ht with ⟨p, hp, rfl⟩
              exact List.mem_map.mpr ⟨p, List.mem_of_mem_filter hp, rfl⟩
            rw [hdk2, hdk, huniv] at h1
            exact h1
          by_cases hm2 : mode_norm mode = "BUY" ∨ mode_norm mode = "TRADE"
          · rw [if_pos hm2, if_pos hm2, buy_two_level_congr hag hsub]
          · rw [if_neg hm2, if_neg hm2]
      · rw [if_neg hm, if_neg hm]
        dsimp only
        have hsub : ∀ t ∈ (v.deltas.filter
            (fun p => decide (0 < p.2))).map Prod.fst,
            t ∈ universe0 pf tg := by
          intro t ht
          rcases List.mem_map.mp ht with ⟨p, hp, rfl⟩
          have h1 : p.1 ∈ v.deltas.map Prod.fst :=
            List.mem_map.mpr ⟨p, List.mem_of_mem_filter hp, rfl⟩
          rw [hdk, huniv] at h1
          exact h1
        by_cases hm2 : mode_norm mode = "BUY" ∨ mode_norm mode = "TRADE"
        · rw [if_pos hm2, if_pos hm2, buy_two_level_congr hag hsub]
        · rw [if_neg hm2, if_neg hm2]

/-- **C8**: `rebalance` performs lazy price validation.  (a) In any valid
mode, if some ticker held with positive quantity has a missing or
non-positive price, the run fails with `missing_price` (respectively
`invalid_price`) naming such a held ticker.  (b) When every positively
held ticker has a positive price, the valuation price scan succeeds — so
positions held with quantity ≤ 0 require no price entry.  (c) The result
depends only on the prices of the run's universe (positively held plus
targeted tickers): any price map agreeing there yields the identical
result, so the whole price map is never scanned. -/
theorem C8_price_validation (pf : Portfolio) (tg : TargetAllocation)
    (prices : List (String × ℚ)) (mode : String) (af : Bool) (mtn : ℚ)
    (hmode : mode_norm mode = "BUY" ∨ mode_norm mode = "TRADE" ∨
      mode_norm mode = "SELL") :
    ((∃ t q, dlookup (qty_by_ticker pf) t = some q ∧ 0 < q ∧
        (dlookup prices t = none ∨
          ∃ px, dlookup prices t = some px ∧ px ≤ 0)) →
      ∃ u q', dlookup (qty_by_ticker pf) u = some q' ∧ 0 < q' ∧
        ((rebalance pf tg prices mode af mtn =
            .error (.missing_price u) ∧ dlookup prices u = none) ∨
          (∃ px, rebalance pf tg prices mode af mtn =
            .error (.invalid_price u) ∧
            dlookup prices u = some px ∧ px ≤ 0))) ∧
    ((∀ p ∈ qty_by_ticker pf, 0 < p.2 →
        0 < (dlookup prices p.1).getD 0) →
      ∃ cv, current_values prices (qty_by_ticker pf) = .ok cv) ∧
    (∀ prices2 : List (String × ℚ), (∀ t ∈ universe0 pf tg,
        dlookup prices2 t = dlookup prices t) →
      rebalance pf tg prices2 mode af mtn =
        rebalance pf tg prices mode af mtn) := by
  have hcond : ¬(mode_norm mode ≠ "BUY" ∧ mode_norm mode ≠ "TRADE" ∧
      mode_norm mode ≠ "SELL") := by
    rcases hmode with h | h | h <;> simp [h]
  refine ⟨?_, ?_, ?_⟩
  · rintro ⟨t, q, hlk, hq, hbad⟩
    rcases current_values_err (qty_by_ticker_nodup pf)
        ⟨t, q, hlk, hq, hbad⟩ with ⟨u, q', hu, hq', hcase⟩
    have hreb : ∀ e, current_values prices (qty_by_ticker pf) = .error e →
        rebalance pf tg prices mode af mtn = .error e := by
      intro e he
      have hv : valuation pf tg prices = .error e := by
        simp only [valuation, he]
      simp only [rebalance]
      rw [if_neg hcond, hv]
    refine ⟨u, q', hu, hq', ?_⟩
    rcases hcase with ⟨herr, hmiss⟩ | ⟨px, herr, hsome, hle⟩
    · exact Or.inl ⟨hreb _ herr, hmiss⟩
    · exact Or.inr ⟨px, hreb _ herr, hsome, hle⟩
  · intro hgood
    refine current_values_ok_of_good ?_
    intro p hp hpos
    have h := hgood p hp hpos
    rcases hd : dlookup prices p.1 with _ | px
    · rw [hd] at h
      simp at h
    · rw [hd] at h
      exact ⟨px, rfl, by simpa using h⟩
  · intro prices2 hag
    exact rebalance_congr hag

/-- Witness for C8: with `AAA` held (quantity 1) and unpriced, the
`TRADE` run fails naming a positively-held unpriced ticker; with the
good price map, the valuation scan succeeds; and replacing the price of
the never-read ticker `ZZZ` — even by a non-positive one — leaves the
run's result identical. -/
theorem C8_price_validation_witness :
    (∃ u q', dlookup (qty_by_ticker ex_pf8) u = some q' ∧ 0 < q' ∧
      ((rebalance ex_pf8 ex_tg8 ex_pr8 "TRADE" false 0 =
          .error (.missing_price u) ∧ dlookup ex_pr8 u = none) ∨
        (∃ px, rebalance ex_pf8 ex_tg8 ex_pr8 "TRADE" false 0 =
          .error (.invalid_price u) ∧
          dlookup ex_pr8 u = some px ∧ px ≤ 0))) ∧
    (∃ cv, current_values ex_pr8ok (qty_by_ticker ex_pf8) = .ok cv) ∧
    rebalance ex_pf8 ex_tg8 ex_pr8far "TRADE" false 0 =
      rebalance ex_pf8 ex_tg8 ex_pr8ok "TRADE" false 0 := by
  refine ⟨?_, ?_, ?_⟩
  · exact (C8_price_validation ex_pf8 ex_tg8 ex_pr8 "TRADE" false 0
      (Or.inr (Or.inl (by with_unfolding_all rfl)))).1
      ⟨"AAA", 1, by with_unfolding_all rfl, by norm_num,
        Or.inl (by with_unfolding_all rfl)⟩
  · exact (C8_price_validation ex_pf8 ex_tg8 ex_pr8ok "TRADE" false 0
      (Or.inr (Or.inl (by with_unfolding_all rfl)))).2.1
      (by with_unfolding_all decide)
  · exact (C8_price_validation ex_pf8 ex_tg8 ex_pr8ok "TRADE" false 0
      (Or.inr (Or.inl (by with_unfolding_all rfl)))).2.2 ex_pr8far
      (by with_unfolding_all decide)

end PortfolioRebalancer
